import Mathlib

/-!
# slideshow.c — navigation, scanning and viewport fit

A shallow embedding of the parts of `slideshow.c` that carry state or arithmetic:

* the global variables (`fileList`, `fileCount`, `currentIndex`, `keyDirection`,
  `keyTimerId`, `folderPath`) as one record passed from handler to handler;
* `FindExtensionW`, `IsImageFile`, `AddFile`, `ScanFolder`;
* the fit computation of `ShowImage`;
* the `WM_KEYDOWN`, `WM_KEYUP`, `WM_APP + 1` and `WM_TIMER` branches of `WndProc`.

C behaviour that the language leaves undefined (signed overflow, `%` by zero, writing past
the end of a fixed-size `WCHAR` buffer, indexing outside `fileList`) is a fault, modelled
as `none`: a handler that faults has no successor state.
-/

namespace Slideshow

/-! ## C integers -/

/-- Largest value of a 32-bit `int`. -/
def INT_MAX : Int := 2147483647

/-- Smallest value of a 32-bit `int`. -/
def INT_MIN : Int := -2147483648

/-- Result of an `int` operation whose mathematical value is `x`: defined only when `x`
is representable. -/
def intOk (x : Int) : Option Int :=
  if INT_MIN ≤ x ∧ x ≤ INT_MAX then some x else none

/-- C `a + b` on `int`. -/
def cAdd (a b : Int) : Option Int := intOk (a + b)

/-- C `a - b` on `int`. -/
def cSub (a b : Int) : Option Int := intOk (a - b)

/-- C `a % b` on `int`: truncated remainder, undefined for `b == 0` and for
`INT_MIN % -1`. -/
def cMod (a b : Int) : Option Int :=
  if b = 0 then none
  else if a = INT_MIN ∧ b = -1 then none
  else some (Int.tmod a b)

/-- C `a / b` on `int`: truncated quotient, undefined for `b == 0` and for
`INT_MIN / -1`. -/
def cDiv (a b : Int) : Option Int :=
  if b = 0 then none
  else if a = INT_MIN ∧ b = -1 then none
  else some (Int.tdiv a b)

/-! ## Strings and buffers -/

/-- A NUL-terminated `WCHAR` string, as the list of its characters before the NUL. -/
abbrev WStr := List Char

/-- The constant of the line #define MAX_FILES 10000. -/
def MAX_FILES : Int := 10000

/-- The constant MAX_PATH of the Windows headers. -/
def MAX_PATH : Nat := 260

/-- The call `lstrcpyW(dst, src)` into a buffer of `cap` elements: the copy, NUL included,
has to fit. -/
def lstrcpyW (cap : Nat) (src : WStr) : Option WStr :=
  if src.length < cap then some src else none

/-! ## Global variables -/

/-- The globals of `slideshow.c` that the modelled functions read or write. -/
structure State where
  /-- Contents of `WCHAR folderPath[MAX_PATH]`. -/
  folderPath : WStr
  /-- Rows `WCHAR fileList[MAX_FILES][MAX_PATH]`, by row index. -/
  fileList : Nat → WStr
  /-- Value of `int fileCount`. -/
  fileCount : Int
  /-- Value of `int currentIndex`. -/
  currentIndex : Int
  /-- Value of `int keyDirection`: -1 = left, 1 = right. -/
  keyDirection : Int
  /-- Whether `keyTimerId` is nonzero; its value is only ever tested against zero. -/
  keyTimerId : Bool

/-! ## Utility functions -/

/-- Loop of `FindExtensionW`: `dot` is the suffix at the last `.` seen so far (if any),
the list is what is left of `fname`. At the end `fname` points at the NUL, the empty
string. -/
def FindExtensionW.loop : WStr → Option WStr → WStr
  | [], dot => match dot with
    | some d => d
    | none => []
  | c :: rest, dot =>
    if c = '.' then FindExtensionW.loop rest (some (c :: rest))
    else FindExtensionW.loop rest dot

/-- The function `WCHAR* FindExtensionW(WCHAR *fname)`. -/
def FindExtensionW (fname : WStr) : WStr :=
  FindExtensionW.loop fname none

/-- The comparisons of `IsImageFile` on the lower-cased copy `ext`; `lstrcmpW(a, b) == 0`
is read as equality of the two strings. -/
def extAllowed (ext : WStr) : Bool :=
  ext == ".jpg".toList ||
  ext == ".jpeg".toList ||
  ext == ".png".toList ||
  ext == ".bmp".toList ||
  ext == ".gif".toList

/-- The function `BOOL IsImageFile(const WCHAR *name)`. The extension is copied into
`WCHAR ext[16]` and lower-cased in place by `CharLowerW`, which maps the string character
by character; `lower` is that character map. -/
def IsImageFile (lower : Char → Char) (name : WStr) : Option Bool := do
  let ext ← lstrcpyW 16 (FindExtensionW name)
  let ext := ext.map lower
  return extAllowed ext

/-- The function `void AddFile(const WCHAR *path)`: `lstrcpyW(fileList[fileCount++], path)`
under the guard `fileCount < MAX_FILES`. The row has `MAX_PATH` elements and the index has
to be a row of `fileList`. -/
def AddFile (path : WStr) (s : State) : Option State :=
  if s.fileCount < MAX_FILES then do
    let row ← if 0 ≤ s.fileCount then some s.fileCount.toNat else none
    let p ← lstrcpyW MAX_PATH path
    let n ← cAdd s.fileCount 1
    return { s with fileList := fun i => if i = row then p else s.fileList i, fileCount := n }
  else some s

/-- What `FindFirstFileW` / `FindNextFileW` enumerate for one directory, entry by entry:
a plain file, or a directory entry (`FILE_ATTRIBUTE_DIRECTORY`) together with whether
`FindFirstFileW` succeeds on it and what it then enumerates. The `.` and `..` entries are
ordinary entries with those names. -/
inductive Listing where
  | nil : Listing
  | file (name : WStr) (rest : Listing) : Listing
  | dir (name : WStr) (readable : Bool) (sub : Listing) (rest : Listing) : Listing

/-- The call `wsprintfW(buf, L"%s\\%s", path, name)` into a `WCHAR buf[MAX_PATH]`. -/
def joinPath (path name : WStr) : Option WStr :=
  lstrcpyW MAX_PATH (path ++ '\\' :: name)

/-- The call `wsprintfW(search, L"%s\\*", path)` into `WCHAR search[MAX_PATH]`. -/
def searchPattern (path : WStr) : Option WStr :=
  lstrcpyW MAX_PATH (path ++ ['\\', '*'])

/-- Test `lstrcmpW(fd.cFileName, L".") == 0 || lstrcmpW(fd.cFileName, L"..") == 0`. -/
def isDotEntry (name : WStr) : Bool :=
  name == ['.'] || name == ['.', '.']

/-- The `do … while (FindNextFileW(h, &fd))` loop of `ScanFolder(path)` over the entries
that are still to come. The recursive call `ScanFolder(full)` on a directory entry is
unfolded in place: it formats its search pattern and, when `FindFirstFileW` succeeds,
runs this loop on the subdirectory. -/
def ScanFolder.loop (lower : Char → Char) (path : WStr) : Listing → State → Option State
  | .nil, s => some s
  | .file name rest, s =>
    if isDotEntry name then ScanFolder.loop lower path rest s
    else do
      let full ← joinPath path name
      let img ← IsImageFile lower name
      let s1 ← if img then AddFile full s else some s
      ScanFolder.loop lower path rest s1
  | .dir name readable sub rest, s =>
    if isDotEntry name then ScanFolder.loop lower path rest s
    else do
      let full ← joinPath path name
      let _ ← searchPattern full
      let s1 ← if readable then ScanFolder.loop lower full sub s else some s
      ScanFolder.loop lower path rest s1

/-- The function `void ScanFolder(const WCHAR *path)`: `readable` says whether
`FindFirstFileW` returns a handle for `path\*`, `l` is what it then enumerates. -/
def ScanFolder (lower : Char → Char) (path : WStr) (readable : Bool) (l : Listing)
    (s : State) : Option State := do
  let _ ← searchPattern path
  if readable then ScanFolder.loop lower path l s else some s

/-! ## Window procedure -/

/-- Virtual-key code `VK_ESCAPE`. -/
def VK_ESCAPE : Nat := 0x1B

/-- Virtual-key code `VK_LEFT`. -/
def VK_LEFT : Nat := 0x25

/-- Virtual-key code `VK_RIGHT`. -/
def VK_RIGHT : Nat := 0x27

/-- The messages of `WndProc` that touch the navigation state, with their `wParam`.
`WM_APP + 1` carries what the file system holds under `folderPath` when the handler
rescans it. -/
inductive Msg where
  | WM_KEYDOWN (wParam : Nat) : Msg
  | WM_KEYUP (wParam : Nat) : Msg
  | WM_APP_1 (readable : Bool) (l : Listing) : Msg
  | WM_TIMER (wParam : Nat) : Msg

/-- Lines 254–255: the re-clamp of `currentIndex` after `ScanFolder` has set
`fileCount`. -/
def reclamp (fileCount currentIndex : Int) : Option Int :=
  if fileCount = 0 then some 0
  else if currentIndex ≥ fileCount then cSub fileCount 1
  else some currentIndex

/-- The function `LRESULT CALLBACK WndProc(...)` on the four modelled messages. `SetTimer` is
taken to succeed (a nonzero return value), `ShowCurrentImage`, `InvalidateRect`,
`KillTimer` and `PostQuitMessage` leave the globals alone. -/
def WndProc (lower : Char → Char) (s : State) : Msg → Option State
  | .WM_KEYDOWN wParam =>
    if wParam = VK_ESCAPE then some s
    else if wParam = VK_RIGHT then do
      let s := { s with keyDirection := 1 }
      let t ← cAdd s.currentIndex 1
      let c ← cMod t s.fileCount
      let s := { s with currentIndex := c }
      return if !s.keyTimerId then { s with keyTimerId := true } else s
    else if wParam = VK_LEFT then do
      let s := { s with keyDirection := -1 }
      let t ← cSub s.currentIndex 1
      let t ← cAdd t s.fileCount
      let c ← cMod t s.fileCount
      let s := { s with currentIndex := c }
      return if !s.keyTimerId then { s with keyTimerId := true } else s
    else some s
  | .WM_KEYUP wParam =>
    if (wParam = VK_RIGHT ∧ s.keyDirection = 1) ∨
       (wParam = VK_LEFT ∧ s.keyDirection = -1) then
      let s := { s with keyDirection := 0 }
      some (if s.keyTimerId then { s with keyTimerId := false } else s)
    else some s
  | .WM_APP_1 readable l => do
    let s := { s with fileCount := 0 }
    let s ← ScanFolder lower s.folderPath readable l s
    let c ← reclamp s.fileCount s.currentIndex
    return { s with currentIndex := c }
  | .WM_TIMER wParam =>
    if wParam = 1 then do
      let t ← cAdd s.currentIndex 1
      let c ← cMod t s.fileCount
      return { s with currentIndex := c }
    else if wParam = 2 ∧ s.keyDirection ≠ 0 then do
      let t ← cAdd s.currentIndex s.keyDirection
      let t ← cAdd t s.fileCount
      let c ← cMod t s.fileCount
      return { s with currentIndex := c }
    else some s

/-- The message loop: the handlers run one after the other, and a fault ends the run. -/
def run (lower : Char → Char) (s : State) : List Msg → Option State
  | [] => some s
  | m :: ms => (WndProc lower s m).bind (fun s1 => run lower s1 ms)

/-- Initial values of the globals, `folderPath` as left by `LoadSettings`. -/
def initState (folderPath : WStr) : State :=
  { folderPath := folderPath, fileList := fun _ => [], fileCount := 0, currentIndex := 0,
    keyDirection := 0, keyTimerId := false }

/-! ## Image drawing: `double` arithmetic

The fit computation of `ShowImage` runs on `double`. Only non-negative values occur, and
their magnitudes stay between `2^-32` and `2^63`, far inside the exponent range of the
format, so a `double` is modelled by a mantissa and an unbounded binary exponent, and
every operation rounds its exact result to 53 significant bits, ties to even.
-/

/-- Auxiliary loop of `floorLog2`: halve `n` until it is below 2, counting the steps. -/
def ilog2 : Nat → Nat → Nat → Nat
  | 0, _, acc => acc
  | f + 1, n, acc => if n < 2 then acc else ilog2 f (n / 2) (acc + 1)

/-- Position of the leading bit of `n` (0 for `n = 0`). -/
def floorLog2 (n : Nat) : Nat := ilog2 n n 0

/-- A non-negative `double`: the value `m * 2^e`. -/
structure Dbl where
  /-- Integer mantissa. -/
  m : Nat
  /-- Binary exponent. -/
  e : Int
deriving DecidableEq

/-- The fraction `n / d` rounded to the nearest integer, ties to the even one. -/
def roundHalfEven (n d : Nat) : Nat :=
  let q := n / d
  let r := n % d
  if 2 * r < d then q
  else if d < 2 * r then q + 1
  else if q % 2 = 0 then q else q + 1

/-- The `double` nearest to `(n / d) * 2^e`: the quotient is taken with 128 extra bits,
its leading bit located, and all but the top 53 bits rounded away, ties to even. The 128
bits leave 53 significant ones whenever `n / d ≥ 2^-76`, which holds for every quotient
and product of `ShowImage` on sizes of at least one pixel. -/
def Dbl.round (n d : Nat) (e : Int) : Dbl :=
  let x := n * 2 ^ 128
  let sh := floorLog2 (x / d) - 52
  ⟨roundHalfEven x (d * 2 ^ sh), e + sh - 128⟩

/-- Conversion `(double)n` of an integer below `2^53`, which is exact. -/
def Dbl.ofNat (n : Nat) : Dbl := ⟨n, 0⟩

/-- Division `a / b` on `double`. -/
def Dbl.div (a b : Dbl) : Dbl := Dbl.round a.m b.m (a.e - b.e)

/-- Multiplication `a * b` on `double`. -/
def Dbl.mul (a b : Dbl) : Dbl := Dbl.round (a.m * b.m) 1 (a.e + b.e)

/-- Comparison `a > b` on `double`. -/
def Dbl.gt (a b : Dbl) : Bool :=
  let lo := min a.e b.e
  decide (b.m * 2 ^ (b.e - lo).toNat < a.m * 2 ^ (a.e - lo).toNat)

/-- Conversion `(int)a`: the fraction is dropped, and the result has to be an `int`. -/
def Dbl.toInt (a : Dbl) : Option Int :=
  intOk (if 0 ≤ a.e then a.m * 2 ^ a.e.toNat else a.m / 2 ^ (-a.e).toNat)

/-- The numbers `ShowImage` hands to `GdipDrawImageRect`. -/
structure Fit where
  /-- Value of `drawW`. -/
  drawW : Int
  /-- Value of `drawH`. -/
  drawH : Int
  /-- Value of `offsetX`. -/
  offsetX : Int
  /-- Value of `offsetY`. -/
  offsetY : Int
deriving DecidableEq

/-- Lines 158–171 of `ShowImage`, for an image of `w` by `h` pixels (`UINT`) and a client
rectangle of `scrW` by `scrH` pixels, all at least 1: a zero size makes the C code divide
by zero in floating point, which `Dbl` does not represent. -/
def ShowImage (w h scrW scrH : Nat) : Option Fit := do
  let imgRatio := Dbl.div (Dbl.ofNat w) (Dbl.ofNat h)
  let scrRatio := Dbl.div (Dbl.ofNat scrW) (Dbl.ofNat scrH)
  let (drawW, drawH) ←
    if Dbl.gt imgRatio scrRatio then do
      let drawH ← Dbl.toInt (Dbl.div (Dbl.ofNat scrW) imgRatio)
      pure ((scrW : Int), drawH)
    else do
      let drawW ← Dbl.toInt (Dbl.mul (Dbl.ofNat scrH) imgRatio)
      pure (drawW, (scrH : Int))
  let offsetX ← (cSub scrW drawW).bind (fun t => cDiv t 2)
  let offsetY ← (cSub scrH drawH).bind (fun t => cDiv t 2)
  return ⟨drawW, drawH, offsetX, offsetY⟩

/-- Conversion `(int)q` of an exact rational: rounding towards zero. -/
def truncQ (q : ℚ) : Option Int :=
  intOk (if 0 ≤ q then ⌊q⌋ else ⌈q⌉)

/-- The fit computation of `ShowImage` with the two ratios and the scaled sizes taken as
exact rationals instead of `double`, and `(int)` as truncation. -/
def ShowImageExact (w h scrW scrH : Nat) : Option Fit := do
  let imgRatio : ℚ := (w : ℚ) / (h : ℚ)
  let scrRatio : ℚ := (scrW : ℚ) / (scrH : ℚ)
  let (drawW, drawH) ←
    if imgRatio > scrRatio then do
      let drawH ← truncQ ((scrW : ℚ) / imgRatio)
      pure ((scrW : Int), drawH)
    else do
      let drawW ← truncQ ((scrH : ℚ) * imgRatio)
      pure (drawW, (scrH : Int))
  let offsetX ← (cSub scrW drawW).bind (fun t => cDiv t 2)
  let offsetY ← (cSub scrH drawH).bind (fun t => cDiv t 2)
  return ⟨drawW, drawH, offsetX, offsetY⟩

/-! ## Predicates used in the statements -/

/-- The cursor lies inside a non-empty image set of at most `MAX_FILES` entries. -/
def InRange (s : State) : Prop :=
  0 < s.fileCount ∧ s.fileCount ≤ MAX_FILES ∧ 0 ≤ s.currentIndex ∧
    s.currentIndex < s.fileCount

instance (s : State) : Decidable (InRange s) := by
  unfold InRange
  infer_instance


/-- A message that advances the slideshow by one image: the auto-advance tick or a
right-arrow key-down. -/
def IsForward (m : Msg) : Prop :=
  m = .WM_TIMER 1 ∨ m = .WM_KEYDOWN VK_RIGHT

/-- The arrow key of a direction: right for `1`, left otherwise. -/
def arrowKey (d : Int) : Nat :=
  if d = 1 then VK_RIGHT else VK_LEFT

/-- What a scan may change between two states: only `fileList` and `fileCount`, the count
never decreasing and never passing `MAX_FILES`. -/
def ScanFrame (s t : State) : Prop :=
  t.folderPath = s.folderPath ∧ t.currentIndex = s.currentIndex ∧
    t.keyDirection = s.keyDirection ∧ t.keyTimerId = s.keyTimerId ∧
    s.fileCount ≤ t.fileCount ∧ (s.fileCount ≤ MAX_FILES → t.fileCount ≤ MAX_FILES)

instance (s t : State) : Decidable (ScanFrame s t) := by
  unfold ScanFrame
  infer_instance

/-- The navigation invariant: the count is that of a scan, the cursor is an index of the
set (or 0 on the empty set), and the direction is one of idle, right, left. -/
def NavInv (s : State) : Prop :=
  0 ≤ s.fileCount ∧ s.fileCount ≤ MAX_FILES ∧
    (0 < s.fileCount → 0 ≤ s.currentIndex ∧ s.currentIndex < s.fileCount) ∧
    (s.fileCount = 0 → s.currentIndex = 0) ∧
    (s.keyDirection = 0 ∨ s.keyDirection = 1 ∨ s.keyDirection = -1)

instance (s : State) : Decidable (NavInv s) := by
  unfold NavInv
  infer_instance

/-- A startup state with two images under the folder `.`. -/
def sampleStart : State := { initState ['.'] with fileCount := 2 }

/-- The state reached from `sampleStart` by a left-arrow key-down, ticks, and a rescan
that finds no image. -/
def sampleEmpty : State := { initState ['.'] with keyDirection := -1, keyTimerId := true }

/-- The extension of a file name in the words of the specification: `ext` is the suffix
of `name` that starts at its last `.`, or the empty string when `name` has no `.`. -/
def IsLastDotSuffix (name ext : WStr) : Prop :=
  ('.' ∉ name ∧ ext = []) ∨
    ∃ pre suf : WStr, name = pre ++ '.' :: suf ∧ '.' ∉ suf ∧ ext = '.' :: suf

/-- The allow-list of the specification: the five accepted extensions, dot included. -/
def allowList : List WStr :=
  [".jpg".toList, ".jpeg".toList, ".png".toList, ".bmp".toList, ".gif".toList]

/-- The live part of the file list: the rows `fileList[0 .. fileCount)`. -/
def liveFiles (s : State) : List WStr :=
  (List.range s.fileCount.toNat).map s.fileList

/-- Whether a name is accepted as an image: its extension, lower-cased, passes the
comparisons of `IsImageFile`. -/
def accepted (lower : Char → Char) (name : WStr) : Bool :=
  extAllowed ((FindExtensionW name).map lower)

/-- The depth-first discovery-order listing of the specification: the full paths of the
accepted non-directory entries, `.` and `..` skipped, the files of a subdirectory emitted
where the subdirectory is met, an unreadable subdirectory contributing nothing. -/
def dfsListing (lower : Char → Char) (path : WStr) : Listing → List WStr
  | .nil => []
  | .file name rest =>
    if isDotEntry name then dfsListing lower path rest
    else if accepted lower name then (path ++ '\\' :: name) :: dfsListing lower path rest
    else dfsListing lower path rest
  | .dir name readable sub rest =>
    if isDotEntry name then dfsListing lower path rest
    else (if readable then dfsListing lower (path ++ '\\' :: name) sub else [])
      ++ dfsListing lower path rest

/-- The directory contents under `path` for which no buffer of `ScanFolder` or
`IsImageFile` is overrun: every composed path and search pattern fits in `MAX_PATH`
characters with its NUL, and every file extension in the 16 of `ext`. -/
def Fits (path : WStr) : Listing → Prop
  | .nil => True
  | .file name rest =>
    (isDotEntry name = false →
      (path ++ '\\' :: name).length < MAX_PATH ∧ (FindExtensionW name).length < 16) ∧
    Fits path rest
  | .dir name readable sub rest =>
    (isDotEntry name = false →
      (path ++ '\\' :: name).length + 2 < MAX_PATH ∧
      (readable = true → Fits (path ++ '\\' :: name) sub)) ∧
    Fits path rest

/-- Whether a directory fits the buffers can be computed along its listing. -/
def Fits.decide : (path : WStr) → (l : Listing) → Decidable (Fits path l)
  | _, .nil => isTrue True.intro
  | path, .file name rest =>
    have := Fits.decide path rest
    inferInstanceAs (Decidable ((isDotEntry name = false →
      (path ++ '\\' :: name).length < MAX_PATH ∧ (FindExtensionW name).length < 16) ∧
      Fits path rest))
  | path, .dir name readable sub rest =>
    have := Fits.decide path rest
    have := Fits.decide (path ++ '\\' :: name) sub
    inferInstanceAs (Decidable ((isDotEntry name = false →
      (path ++ '\\' :: name).length + 2 < MAX_PATH ∧
      (readable = true → Fits (path ++ '\\' :: name) sub)) ∧
      Fits path rest))

instance (path : WStr) (l : Listing) : Decidable (Fits path l) := Fits.decide path l

/-- A folder holding `k` files, all named `a.jpg`. -/
def flatFolder : Nat → Listing
  | 0 => .nil
  | k + 1 => .file "a.jpg".toList (flatFolder k)

/-- The rational number a `Dbl` stands for. -/
def Dbl.val (a : Dbl) : ℚ := (a.m : ℚ) * (2 : ℚ) ^ a.e

/-- The draw rectangle lies inside a viewport of `scrW` by `scrH` pixels and touches it in
one dimension. -/
def InsideViewport (f : Fit) (scrW scrH : Int) : Prop :=
  0 ≤ f.drawW ∧ f.drawW ≤ scrW ∧ 0 ≤ f.drawH ∧ f.drawH ≤ scrH ∧
    (f.drawW = scrW ∨ f.drawH = scrH) ∧
    0 ≤ f.offsetX ∧ 0 ≤ f.offsetY ∧
    f.offsetX + f.drawW ≤ scrW ∧ f.offsetY + f.drawH ≤ scrH

instance (f : Fit) (scrW scrH : Int) : Decidable (InsideViewport f scrW scrH) := by
  unfold InsideViewport
  infer_instance
/-! ## C integer operations inside their range -/

theorem intOk_of_range {x : Int} (h1 : -2147483648 ≤ x) (h2 : x ≤ 2147483647) :
    intOk x = some x := by
  simp [intOk, INT_MIN, INT_MAX, h1, h2]

theorem cAdd_of_range {a b : Int} (h1 : -2147483648 ≤ a + b) (h2 : a + b ≤ 2147483647) :
    cAdd a b = some (a + b) := intOk_of_range h1 h2

theorem cSub_of_range {a b : Int} (h1 : -2147483648 ≤ a - b) (h2 : a - b ≤ 2147483647) :
    cSub a b = some (a - b) := intOk_of_range h1 h2

theorem cMod_of_pos {a n : Int} (ha : 0 ≤ a) (hn : 0 < n) : cMod a n = some (a % n) := by
  have h0 : n ≠ 0 := by omega
  have h1 : ¬ (a = INT_MIN ∧ n = -1) := by
    rintro ⟨_, h⟩
    omega
  simp [cMod, h0, h1, Int.tmod_eq_emod ha (le_of_lt hn)]

theorem cMod_zero (a : Int) : cMod a 0 = none := by
  simp [cMod]

/-! ## The step handlers on a non-empty image set -/

theorem WndProc_timer1 (lower : Char → Char) (s : State) (h : InRange s) :
    WndProc lower s (.WM_TIMER 1) =
      some { s with currentIndex := (s.currentIndex + 1) % s.fileCount } := by
  obtain ⟨h1, h2, h3, h4⟩ := h
  simp only [MAX_FILES] at h2
  have ha : cAdd s.currentIndex 1 = some (s.currentIndex + 1) :=
    cAdd_of_range (by omega) (by omega)
  have hm : cMod (s.currentIndex + 1) s.fileCount
      = some ((s.currentIndex + 1) % s.fileCount) := cMod_of_pos (by omega) h1
  simp [WndProc, ha, hm]

theorem WndProc_right (lower : Char → Char) (s : State) (h : InRange s) :
    WndProc lower s (.WM_KEYDOWN VK_RIGHT) =
      some { s with keyDirection := 1,
                    currentIndex := (s.currentIndex + 1) % s.fileCount,
                    keyTimerId := true } := by
  obtain ⟨h1, h2, h3, h4⟩ := h
  simp only [MAX_FILES] at h2
  have ha : cAdd s.currentIndex 1 = some (s.currentIndex + 1) :=
    cAdd_of_range (by omega) (by omega)
  have hm : cMod (s.currentIndex + 1) s.fileCount
      = some ((s.currentIndex + 1) % s.fileCount) := cMod_of_pos (by omega) h1
  cases hk : s.keyTimerId <;> simp [WndProc, VK_RIGHT, VK_ESCAPE, ha, hm, hk]

theorem WndProc_left (lower : Char → Char) (s : State) (h : InRange s) :
    WndProc lower s (.WM_KEYDOWN VK_LEFT) =
      some { s with keyDirection := -1,
                    currentIndex := (s.currentIndex - 1 + s.fileCount) % s.fileCount,
                    keyTimerId := true } := by
  obtain ⟨h1, h2, h3, h4⟩ := h
  simp only [MAX_FILES] at h2
  have hs : cSub s.currentIndex 1 = some (s.currentIndex - 1) :=
    cSub_of_range (by omega) (by omega)
  have ha : cAdd (s.currentIndex - 1) s.fileCount = some (s.currentIndex - 1 + s.fileCount) :=
    cAdd_of_range (by omega) (by omega)
  have hm : cMod (s.currentIndex - 1 + s.fileCount) s.fileCount
      = some ((s.currentIndex - 1 + s.fileCount) % s.fileCount) :=
    cMod_of_pos (by omega) h1
  cases hk : s.keyTimerId <;>
    simp [WndProc, VK_RIGHT, VK_LEFT, VK_ESCAPE, hs, ha, hm, hk]

theorem WndProc_timer2 (lower : Char → Char) (s : State) (h : InRange s)
    (hd : s.keyDirection = 1 ∨ s.keyDirection = -1) :
    WndProc lower s (.WM_TIMER 2) =
      some { s with currentIndex :=
        (s.currentIndex + s.keyDirection + s.fileCount) % s.fileCount } := by
  obtain ⟨h1, h2, h3, h4⟩ := h
  simp only [MAX_FILES] at h2
  have ha : cAdd s.currentIndex s.keyDirection = some (s.currentIndex + s.keyDirection) :=
    cAdd_of_range (by omega) (by omega)
  have hb : cAdd (s.currentIndex + s.keyDirection) s.fileCount
      = some (s.currentIndex + s.keyDirection + s.fileCount) :=
    cAdd_of_range (by omega) (by omega)
  have hm : cMod (s.currentIndex + s.keyDirection + s.fileCount) s.fileCount
      = some ((s.currentIndex + s.keyDirection + s.fileCount) % s.fileCount) :=
    cMod_of_pos (by omega) h1
  have hne : s.keyDirection ≠ 0 := by omega
  simp [WndProc, ha, hb, hm, hne]

theorem WndProc_timer2_idle (lower : Char → Char) (s : State) (hd : s.keyDirection = 0) :
    WndProc lower s (.WM_TIMER 2) = some s := by
  simp [WndProc, hd]

/-! ## Forward and backward steps -/

theorem emod_succ_wrap {c n : Int} (hc0 : 0 ≤ c) (hc : c < n) :
    (c + 1) % n = if c + 1 = n then 0 else c + 1 := by
  split
  · next h => rw [h, Int.emod_self]
  · next h => exact Int.emod_eq_of_lt (by omega) (by omega)

theorem emod_pred_wrap {c n : Int} (hc0 : 0 ≤ c) (hc : c < n) :
    (c - 1 + n) % n = if c = 0 then n - 1 else c - 1 := by
  split
  · next h =>
    subst h
    have h1 : (0 : Int) - 1 + n = n - 1 := by ring
    rw [h1]
    exact Int.emod_eq_of_lt (by omega) (by omega)
  · next h =>
    rw [Int.add_emod_self]
    exact Int.emod_eq_of_lt (by omega) (by omega)

/-- C4. On a set of `n` images, `1 ≤ n ≤ 10000`, with the cursor at `c`, `0 ≤ c < n`, the
right-arrow handler moves the cursor to `(c + 1) % n` (which is `0` when `c = n - 1`) and
the left-arrow handler run after it moves the cursor back to `c`. -/
theorem forward_then_backward (lower : Char → Char) (s : State) (n c : Int)
    (hn1 : 1 ≤ n) (hn : n ≤ 10000) (hc0 : 0 ≤ c) (hc : c < n)
    (hfc : s.fileCount = n) (hci : s.currentIndex = c) :
    ∃ s1 s2, WndProc lower s (.WM_KEYDOWN VK_RIGHT) = some s1 ∧
      s1.currentIndex = (c + 1) % n ∧
      s1.currentIndex = (if c + 1 = n then 0 else c + 1) ∧
      WndProc lower s1 (.WM_KEYDOWN VK_LEFT) = some s2 ∧
      s2.currentIndex = (s1.currentIndex - 1 + n) % n ∧
      s2.currentIndex = c ∧ s2.fileCount = n := by
  subst hfc hci
  have hr : InRange s := ⟨by omega, by simpa [MAX_FILES] using hn, hc0, hc⟩
  have hw := emod_succ_wrap hc0 hc
  refine ⟨_, _, WndProc_right lower s hr, rfl, hw, WndProc_left lower _ ?_, rfl, ?_, rfl⟩
  · refine ⟨hr.1, hr.2.1, ?_, ?_⟩
    · show 0 ≤ (s.currentIndex + 1) % s.fileCount
      rw [hw]; split <;> omega
    · show (s.currentIndex + 1) % s.fileCount < s.fileCount
      rw [hw]; split <;> omega
  show ((s.currentIndex + 1) % s.fileCount - 1 + s.fileCount) % s.fileCount = s.currentIndex
  rw [hw]
  split
  · next h =>
    have h1 : (0 : Int) - 1 + s.fileCount = s.fileCount - 1 := by ring
    rw [h1, Int.emod_eq_of_lt (by omega) (by omega)]
    omega
  · next h =>
    have : s.currentIndex + 1 - 1 + s.fileCount = s.currentIndex + s.fileCount := by ring
    rw [this, Int.add_emod_self]
    exact Int.emod_eq_of_lt hc0 hc

/-- Witness of C4 at the wrap case `n = 1`, `c = 0`. -/
theorem forward_then_backward_witness :
    ∃ s1 s2, WndProc Char.toLower { initState ['.'] with fileCount := 1 }
        (.WM_KEYDOWN VK_RIGHT) = some s1 ∧
      s1.currentIndex = (0 + 1) % 1 ∧
      s1.currentIndex = (if (0 : Int) + 1 = 1 then 0 else 0 + 1) ∧
      WndProc Char.toLower s1 (.WM_KEYDOWN VK_LEFT) = some s2 ∧
      s2.currentIndex = (s1.currentIndex - 1 + 1) % 1 ∧
      s2.currentIndex = 0 ∧ s2.fileCount = 1 :=
  forward_then_backward Char.toLower { initState ['.'] with fileCount := 1 } 1 0
    (by decide) (by decide) (by decide) (by decide) rfl rfl

/-! ## Cycles of forward steps -/

theorem WndProc_forward (lower : Char → Char) (s : State) (h : InRange s) (m : Msg)
    (hm : IsForward m) :
    ∃ s1, WndProc lower s m = some s1 ∧ s1.fileCount = s.fileCount ∧
      s1.currentIndex = (s.currentIndex + 1) % s.fileCount := by
  rcases hm with rfl | rfl
  · exact ⟨_, WndProc_timer1 lower s h, rfl, rfl⟩
  · exact ⟨_, WndProc_right lower s h, rfl, rfl⟩

theorem run_forward (lower : Char → Char) (ms : List Msg) :
    ∀ s : State, InRange s → (∀ m ∈ ms, IsForward m) →
      ∃ s1, run lower s ms = some s1 ∧ s1.fileCount = s.fileCount ∧
        s1.currentIndex = (s.currentIndex + ms.length) % s.fileCount := by
  induction ms with
  | nil =>
    intro s h _
    refine ⟨s, rfl, rfl, ?_⟩
    simp only [List.length_nil, Nat.cast_zero, add_zero]
    exact (Int.emod_eq_of_lt h.2.2.1 h.2.2.2).symm
  | cons m ms ih =>
    intro s h hall
    obtain ⟨s1, hs1, hf1, hc1⟩ := WndProc_forward lower s h m (hall m (List.mem_cons_self _ _))
    have hr1 : InRange s1 := by
      refine ⟨hf1 ▸ h.1, hf1 ▸ h.2.1, ?_, ?_⟩
      · rw [hc1]; exact Int.emod_nonneg _ (by have := h.1; omega)
      · rw [hc1, hf1]; exact Int.emod_lt_of_pos _ h.1
    obtain ⟨s2, hs2, hf2, hc2⟩ := ih s1 hr1 (fun x hx => hall x (List.mem_cons_of_mem _ hx))
    refine ⟨s2, ?_, hf2.trans hf1, ?_⟩
    · simp [run, hs1, hs2]
    · rw [hc2, hc1, hf1, List.length_cons, Int.emod_add_emod]
      congr 1
      push_cast
      ring

theorem emod_shift_eq_iff {c n : Int} (hc0 : 0 ≤ c) (hc : c < n) (k : Nat)
    (hk : (k : Int) ≤ n) :
    (c + k) % n = c ↔ k = 0 ∨ (k : Int) = n := by
  have hk0 : (0 : Int) ≤ k := Int.ofNat_nonneg k
  by_cases h1 : c + k < n
  · rw [Int.emod_eq_of_lt (by omega) h1]
    omega
  · have h2 : (c + k) % n = c + k - n := by
      have h3 : c + (k : Int) = (c + k - n) + n := by ring
      rw [h3, Int.add_emod_self]
      have h4 : c + (k : Int) - n + n - n = c + k - n := by ring
      rw [h4]
      exact Int.emod_eq_of_lt (by omega) (by omega)
    rw [h2]
    omega

/-- C5. On a set of `n` images, `1 ≤ n ≤ 10000`, with the cursor at `c`, `0 ≤ c < n`:
any `n` forward steps (auto-advance ticks or right-arrow key-downs, each setting
`currentIndex = (currentIndex + 1) % n`) bring the cursor back to `c`; no smaller positive
number of forward steps does; and every index `j` of the set is reached after exactly one
number `k < n` of auto-advance ticks. -/
theorem cyclic_closure (lower : Char → Char) (s : State) (n c : Int)
    (hn1 : 1 ≤ n) (hn : n ≤ 10000) (hc0 : 0 ≤ c) (hc : c < n)
    (hfc : s.fileCount = n) (hci : s.currentIndex = c) :
    (∀ ms : List Msg, (∀ m ∈ ms, IsForward m) → (ms.length : Int) = n →
      ∃ s1, run lower s ms = some s1 ∧ s1.currentIndex = c) ∧
    (∀ ms : List Msg, (∀ m ∈ ms, IsForward m) → 0 < ms.length → (ms.length : Int) < n →
      ∃ s1, run lower s ms = some s1 ∧ s1.currentIndex ≠ c) ∧
    (∀ j : Int, 0 ≤ j → j < n →
      ∃ k : Nat, (k : Int) < n ∧
        (∃ s1, run lower s (List.replicate k (.WM_TIMER 1)) = some s1 ∧ s1.currentIndex = j) ∧
        ∀ k2 : Nat, (k2 : Int) < n →
          (∃ s1, run lower s (List.replicate k2 (.WM_TIMER 1)) = some s1 ∧
            s1.currentIndex = j) → k2 = k) := by
  subst hfc hci
  have hr : InRange s := ⟨by omega, by simpa [MAX_FILES] using hn, hc0, hc⟩
  have tick : ∀ k : Nat, ∃ s1, run lower s (List.replicate k (.WM_TIMER 1)) = some s1 ∧
      s1.currentIndex = (s.currentIndex + k) % s.fileCount := by
    intro k
    obtain ⟨s1, h1, _, h3⟩ := run_forward lower (List.replicate k (.WM_TIMER 1)) s hr
      (fun m hm => Or.inl (List.eq_of_mem_replicate hm))
    exact ⟨s1, h1, by simpa using h3⟩
  refine ⟨?_, ?_, ?_⟩
  · intro ms hall hlen
    obtain ⟨s1, h1, _, h3⟩ := run_forward lower ms s hr hall
    refine ⟨s1, h1, ?_⟩
    rw [h3]
    exact (emod_shift_eq_iff hc0 hc ms.length (le_of_eq hlen)).2 (Or.inr hlen)
  · intro ms hall hpos hlt
    obtain ⟨s1, h1, _, h3⟩ := run_forward lower ms s hr hall
    refine ⟨s1, h1, ?_⟩
    rw [h3]
    intro h
    rcases (emod_shift_eq_iff hc0 hc ms.length (le_of_lt hlt)).1 h with h0 | h0 <;> omega
  · intro j hj0 hj
    -- the number of ticks that leads from the cursor to `j`
    have key : ∀ k : Nat, (k : Int) < s.fileCount →
        ((s.currentIndex + k) % s.fileCount = j ↔
          (k : Int) = (if s.currentIndex ≤ j then j - s.currentIndex
            else j - s.currentIndex + s.fileCount)) := by
      intro k hk
      have hk0 : (0 : Int) ≤ k := Int.ofNat_nonneg k
      by_cases h1 : s.currentIndex + k < s.fileCount
      · rw [Int.emod_eq_of_lt (by omega) h1]
        split <;> omega
      · have h2 : (s.currentIndex + k) % s.fileCount = s.currentIndex + k - s.fileCount := by
          have h3 : s.currentIndex + (k : Int)
              = (s.currentIndex + k - s.fileCount) + s.fileCount := by ring
          rw [h3, Int.add_emod_self]
          have h4 : s.currentIndex + (k : Int) - s.fileCount + s.fileCount - s.fileCount
              = s.currentIndex + k - s.fileCount := by ring
          rw [h4]
          exact Int.emod_eq_of_lt (by omega) (by omega)
        rw [h2]
        split <;> omega
    let t : Int := if s.currentIndex ≤ j then j - s.currentIndex
      else j - s.currentIndex + s.fileCount
    have ht0 : 0 ≤ t := by
      show 0 ≤ (if s.currentIndex ≤ j then j - s.currentIndex
        else j - s.currentIndex + s.fileCount)
      split <;> omega
    have htn : t < s.fileCount := by
      show (if s.currentIndex ≤ j then j - s.currentIndex
        else j - s.currentIndex + s.fileCount) < s.fileCount
      split <;> omega
    have htk : (t.toNat : Int) = t := Int.toNat_of_nonneg ht0
    refine ⟨t.toNat, by omega, ?_, ?_⟩
    · obtain ⟨s1, h1, h2⟩ := tick t.toNat
      exact ⟨s1, h1, by rw [h2]; exact (key t.toNat (by omega)).2 htk⟩
    · rintro k2 hk2 ⟨s1, h1, h2⟩
      obtain ⟨s3, h3, h4⟩ := tick k2
      have h5 : s1 = s3 := Option.some.inj (h1.symm.trans h3)
      subst h5
      have h6 := (key k2 hk2).1 (h4.symm.trans h2)
      have h7 : (k2 : Int) = t := h6
      omega

/-- Witness of C5: three images, cursor on the last one. -/
theorem cyclic_closure_witness :
    (∀ ms : List Msg, (∀ m ∈ ms, IsForward m) → (ms.length : Int) = 3 →
      ∃ s1, run Char.toLower
        { initState ['.'] with fileCount := 3, currentIndex := 2 } ms = some s1 ∧
        s1.currentIndex = 2) ∧
    (∀ ms : List Msg, (∀ m ∈ ms, IsForward m) → 0 < ms.length → (ms.length : Int) < 3 →
      ∃ s1, run Char.toLower
        { initState ['.'] with fileCount := 3, currentIndex := 2 } ms = some s1 ∧
        s1.currentIndex ≠ 2) ∧
    (∀ j : Int, 0 ≤ j → j < 3 →
      ∃ k : Nat, (k : Int) < 3 ∧
        (∃ s1, run Char.toLower { initState ['.'] with fileCount := 3, currentIndex := 2 }
          (List.replicate k (.WM_TIMER 1)) = some s1 ∧ s1.currentIndex = j) ∧
        ∀ k2 : Nat, (k2 : Int) < 3 →
          (∃ s1, run Char.toLower { initState ['.'] with fileCount := 3, currentIndex := 2 }
            (List.replicate k2 (.WM_TIMER 1)) = some s1 ∧ s1.currentIndex = j) → k2 = k) :=
  cyclic_closure Char.toLower { initState ['.'] with fileCount := 3, currentIndex := 2 } 3 2
    (by decide) (by decide) (by decide) (by decide) rfl rfl

/-! ## Key repeat -/

theorem WndProc_keyup_other (lower : Char → Char) (s : State) (w : Nat)
    (h : ¬ ((w = VK_RIGHT ∧ s.keyDirection = 1) ∨ (w = VK_LEFT ∧ s.keyDirection = -1))) :
    WndProc lower s (.WM_KEYUP w) = some s := by
  simp only [WndProc, if_neg h]

theorem WndProc_keyup_match (lower : Char → Char) (s : State) (w : Nat)
    (h : (w = VK_RIGHT ∧ s.keyDirection = 1) ∨ (w = VK_LEFT ∧ s.keyDirection = -1)) :
    WndProc lower s (.WM_KEYUP w) =
      some { s with keyDirection := 0, keyTimerId := false } := by
  cases hk : s.keyTimerId <;> simp [WndProc, h, hk]

theorem run_timer2_idle (lower : Char → Char) (s : State) (hd : s.keyDirection = 0)
    (k : Nat) : run lower s (List.replicate k (.WM_TIMER 2)) = some s := by
  induction k with
  | zero => rfl
  | succ k ih => simp [List.replicate_succ, run, WndProc_timer2_idle lower s hd, ih]

theorem run_timer2 (lower : Char → Char) (e : Int) (he : e = 1 ∨ e = -1) (k : Nat) :
    ∀ s : State, InRange s → s.keyDirection = e →
      run lower s (List.replicate k (.WM_TIMER 2)) =
        some { s with currentIndex := (s.currentIndex + k * e) % s.fileCount } := by
  induction k with
  | zero =>
    intro s h _
    have h0 : (s.currentIndex + ((0 : Nat) : Int) * e) % s.fileCount = s.currentIndex := by
      simp only [Nat.cast_zero, zero_mul, add_zero]
      exact Int.emod_eq_of_lt h.2.2.1 h.2.2.2
    rw [h0]
    rfl
  | succ k ih =>
    intro s h hk
    have h1 := WndProc_timer2 lower s h (hk ▸ he)
    have hr1 : InRange { s with currentIndex :=
        (s.currentIndex + s.keyDirection + s.fileCount) % s.fileCount } :=
      ⟨h.1, h.2.1, Int.emod_nonneg _ (by have := h.1; omega), Int.emod_lt_of_pos _ h.1⟩
    have h2 := ih _ hr1 hk
    simp only [List.replicate_succ, run, h1]
    change run lower _ (List.replicate k (.WM_TIMER 2)) = _
    rw [h2]
    congr 2
    show ((s.currentIndex + s.keyDirection + s.fileCount) % s.fileCount + k * e) % s.fileCount
      = (s.currentIndex + ((k + 1 : Nat) : Int) * e) % s.fileCount
    rw [Int.emod_add_emod, hk]
    have h3 : s.currentIndex + e + s.fileCount + (k : Int) * e
        = (s.currentIndex + ((k + 1 : Nat) : Int) * e) + s.fileCount := by
      push_cast
      ring
    rw [h3, Int.add_emod_self]

/-- C8. On a non-empty image set with the cursor in range, for a direction `d` (right = 1,
left = -1): the key-down of `d` steps the cursor once in direction `d`, sets
`keyDirection = d` and leaves the repeat timer set; a key-down of the opposite direction
then sets `keyDirection = -d` with the repeat timer still set; from there, after any number
`k` of key-repeat ticks the cursor has moved `k` steps in direction `-d` with direction
and timer unchanged, a key-up of `d` — or of any key other than the arrow of `-d` —
changes nothing, and the key-up of `-d` clears `keyDirection` and the repeat timer without
moving the cursor, after which key-repeat ticks change nothing. -/
theorem last_key_wins (lower : Char → Char) (s : State) (d : Int) (hd : d = 1 ∨ d = -1)
    (h : InRange s) :
    ∃ s1 s2,
      WndProc lower s (.WM_KEYDOWN (arrowKey d)) = some s1 ∧
      s1.currentIndex = (s.currentIndex + d) % s.fileCount ∧
      s1.keyDirection = d ∧ s1.keyTimerId = true ∧
      WndProc lower s1 (.WM_KEYDOWN (arrowKey (-d))) = some s2 ∧
      s2.currentIndex = (s1.currentIndex - d) % s.fileCount ∧
      s2.keyDirection = -d ∧ s2.keyTimerId = true ∧
      ∀ k : Nat, ∃ t,
        run lower s2 (List.replicate k (.WM_TIMER 2)) = some t ∧
        t.currentIndex = (s2.currentIndex - k * d) % s.fileCount ∧
        t.keyDirection = -d ∧ t.keyTimerId = true ∧
        WndProc lower t (.WM_KEYUP (arrowKey d)) = some t ∧
        (∀ w : Nat, w ≠ arrowKey (-d) → WndProc lower t (.WM_KEYUP w) = some t) ∧
        ∃ u, WndProc lower t (.WM_KEYUP (arrowKey (-d))) = some u ∧
          u.keyDirection = 0 ∧ u.keyTimerId = false ∧
          u.currentIndex = t.currentIndex ∧ u.fileCount = t.fileCount ∧
          ∀ j : Nat, run lower u (List.replicate j (.WM_TIMER 2)) = some u := by
  have hpos := h.1
  rcases hd with rfl | rfl
  · -- right first, then left
    have e1 := WndProc_right lower s h
    have r1 : InRange
        { s with
          keyDirection := 1
          currentIndex := (s.currentIndex + 1) % s.fileCount
          keyTimerId := true } :=
      ⟨h.1, h.2.1, Int.emod_nonneg _ (by omega), Int.emod_lt_of_pos _ h.1⟩
    have e2 := WndProc_left lower _ r1
    refine ⟨_, _, e1, rfl, rfl, rfl, e2, ?_, rfl, rfl, ?_⟩
    · show ((s.currentIndex + 1) % s.fileCount - 1 + s.fileCount) % s.fileCount
        = ((s.currentIndex + 1) % s.fileCount - 1) % s.fileCount
      rw [Int.add_emod_self]
    · intro k
      have r2 : InRange
          { s with
            keyDirection := -1
            currentIndex :=
              ((s.currentIndex + 1) % s.fileCount - 1 + s.fileCount) % s.fileCount
            keyTimerId := true } :=
        ⟨h.1, h.2.1, Int.emod_nonneg _ (by omega), Int.emod_lt_of_pos _ h.1⟩
      have e3 := run_timer2 lower (-1) (Or.inr rfl) k _ r2 rfl
      refine ⟨_, e3, ?_, rfl, rfl, ?_, ?_, ?_⟩
      · show (_ + (k : Int) * -1) % s.fileCount = (_ - (k : Int) * 1) % s.fileCount
        congr 1
        try ring
      · exact WndProc_keyup_other lower _ _ (by simp [arrowKey, VK_RIGHT, VK_LEFT])
      · intro w hw
        refine WndProc_keyup_other lower _ _ ?_
        have hw2 : w ≠ 37 ∨ w ≠ 39 := by omega
        revert hw
        simp only [arrowKey, VK_RIGHT, VK_LEFT]
        intro hw
        norm_num at hw ⊢
        omega
      · refine ⟨_, WndProc_keyup_match lower _ _ (Or.inr ⟨by simp [arrowKey], rfl⟩),
          rfl, rfl, rfl, rfl, ?_⟩
        intro j
        exact run_timer2_idle lower _ rfl j
  · -- left first, then right
    have e1 := WndProc_left lower s h
    have r1 : InRange
        { s with
          keyDirection := -1
          currentIndex := (s.currentIndex - 1 + s.fileCount) % s.fileCount
          keyTimerId := true } :=
      ⟨h.1, h.2.1, Int.emod_nonneg _ (by omega), Int.emod_lt_of_pos _ h.1⟩
    have e2 := WndProc_right lower _ r1
    refine ⟨_, _, e1, ?_, rfl, rfl, e2, ?_, rfl, rfl, ?_⟩
    · show (s.currentIndex - 1 + s.fileCount) % s.fileCount
        = (s.currentIndex + -1) % s.fileCount
      rw [Int.add_emod_self]
      rfl
    · show ((s.currentIndex - 1 + s.fileCount) % s.fileCount + 1) % s.fileCount
        = ((s.currentIndex - 1 + s.fileCount) % s.fileCount - -1) % s.fileCount
      congr 1
      try ring
    · intro k
      have r2 : InRange
          { s with
            keyDirection := 1
            currentIndex :=
              ((s.currentIndex - 1 + s.fileCount) % s.fileCount + 1) % s.fileCount
            keyTimerId := true } :=
        ⟨h.1, h.2.1, Int.emod_nonneg _ (by omega), Int.emod_lt_of_pos _ h.1⟩
      have e3 := run_timer2 lower 1 (Or.inl rfl) k _ r2 rfl
      refine ⟨_, e3, ?_, rfl, rfl, ?_, ?_, ?_⟩
      · show (_ + (k : Int) * 1) % s.fileCount = (_ - (k : Int) * -1) % s.fileCount
        congr 1
        try ring
      · exact WndProc_keyup_other lower _ _ (by simp [arrowKey, VK_RIGHT, VK_LEFT])
      · intro w hw
        refine WndProc_keyup_other lower _ _ ?_
        have hw2 : w ≠ 37 ∨ w ≠ 39 := by omega
        revert hw
        simp only [arrowKey, VK_RIGHT, VK_LEFT]
        intro hw
        norm_num at hw ⊢
        omega
      · refine ⟨_, WndProc_keyup_match lower _ _ (Or.inl ⟨by simp [arrowKey], rfl⟩),
          rfl, rfl, rfl, rfl, ?_⟩
        intro j
        exact run_timer2_idle lower _ rfl j

/-! ## What a scan leaves alone -/

theorem ScanFrame.refl (s : State) : ScanFrame s s :=
  ⟨rfl, rfl, rfl, rfl, le_refl _, fun h => h⟩

theorem ScanFrame.trans {s t u : State} (h1 : ScanFrame s t) (h2 : ScanFrame t u) :
    ScanFrame s u :=
  ⟨h2.1.trans h1.1, h2.2.1.trans h1.2.1, h2.2.2.1.trans h1.2.2.1,
    h2.2.2.2.1.trans h1.2.2.2.1, le_trans h1.2.2.2.2.1 h2.2.2.2.2.1,
    fun h => h2.2.2.2.2.2 (h1.2.2.2.2.2 h)⟩

theorem AddFile_frame {path : WStr} {s t : State} (h : AddFile path s = some t) :
    ScanFrame s t := by
  unfold AddFile at h
  split at h
  · next hlt =>
    by_cases h0 : 0 ≤ s.fileCount
    · cases hp : lstrcpyW MAX_PATH path with
      | none => simp [h0, hp] at h
      | some p =>
        have hadd : cAdd s.fileCount 1 = some (s.fileCount + 1) := by
          simp only [MAX_FILES] at hlt
          exact cAdd_of_range (by omega) (by omega)
        simp [h0, hp, hadd] at h
        subst h
        refine ⟨rfl, rfl, rfl, rfl, ?_, ?_⟩
        · show s.fileCount ≤ s.fileCount + 1
          omega
        · intro _
          show s.fileCount + 1 ≤ MAX_FILES
          omega
    · simp [h0] at h
  · simp at h
    subst h
    exact ScanFrame.refl s

theorem ScanFolder.loop_frame (lower : Char → Char) (l : Listing) :
    ∀ (path : WStr) (s t : State), ScanFolder.loop lower path l s = some t → ScanFrame s t := by
  induction l with
  | nil =>
    intro path s t h
    simp only [ScanFolder.loop, Option.some.injEq] at h
    subst h
    exact ScanFrame.refl s
  | file name rest ih =>
    intro path s t h
    simp only [ScanFolder.loop] at h
    split at h
    · exact ih path s t h
    · cases hj : joinPath path name with
      | none => simp [hj] at h
      | some full =>
        cases hi : IsImageFile lower name with
        | none => simp [hj, hi] at h
        | some img =>
          cases img with
          | false =>
            simp [hj, hi] at h
            exact ih path s t h
          | true =>
            cases ha : AddFile full s with
            | none => simp [hj, hi, ha] at h
            | some s1 =>
              simp [hj, hi, ha] at h
              exact (AddFile_frame ha).trans (ih path s1 t h)
  | dir name readable sub rest ihs ihr =>
    intro path s t h
    simp only [ScanFolder.loop] at h
    split at h
    · exact ihr path s t h
    · cases hj : joinPath path name with
      | none => simp [hj] at h
      | some full =>
        cases hp : searchPattern full with
        | none => simp [hj, hp] at h
        | some pat =>
          cases readable with
          | false =>
            simp [hj, hp] at h
            exact ihr path s t h
          | true =>
            cases hl : ScanFolder.loop lower full sub s with
            | none => simp [hj, hp, hl] at h
            | some s1 =>
              simp [hj, hp, hl] at h
              exact (ihs full s s1 hl).trans (ihr path s1 t h)

theorem ScanFolder_frame {lower : Char → Char} {path : WStr} {readable : Bool} {l : Listing}
    {s t : State} (h : ScanFolder lower path readable l s = some t) : ScanFrame s t := by
  unfold ScanFolder at h
  cases hp : searchPattern path with
  | none => simp [hp] at h
  | some pat =>
    cases readable with
    | false =>
      simp [hp] at h
      subst h
      exact ScanFrame.refl s
    | true =>
      simp [hp] at h
      exact ScanFolder.loop_frame lower l path s t h

/-- The directory case of the loop is the recursive call `ScanFolder(full)` followed by the
rest of the loop. -/
theorem ScanFolder.loop_dir (lower : Char → Char) (path name full : WStr) (readable : Bool)
    (sub rest : Listing) (s : State) (hd : isDotEntry name = false)
    (hj : joinPath path name = some full) :
    ScanFolder.loop lower path (.dir name readable sub rest) s
      = (ScanFolder lower full readable sub s).bind
          (fun s1 => ScanFolder.loop lower path rest s1) := by
  cases hq : searchPattern full <;> cases readable <;>
    simp [ScanFolder.loop, ScanFolder, hd, hj, hq]

/-! ## Rescan -/

theorem WndProc_rescan (lower : Char → Char) (s s1 : State) (readable : Bool) (l : Listing)
    (c : Int)
    (h : ScanFolder lower s.folderPath readable l { s with fileCount := 0 } = some s1)
    (hr : reclamp s1.fileCount s1.currentIndex = some c) :
    WndProc lower s (.WM_APP_1 readable l) = some { s1 with currentIndex := c } := by
  simp only [WndProc]
  rw [h]
  simp [hr]

theorem reclamp_eq (c newLen : Int) (hn : 0 ≤ newLen) (hmax : newLen ≤ INT_MAX) :
    reclamp newLen c
      = some (if newLen = 0 then 0 else if c ≥ newLen then newLen - 1 else c) := by
  simp only [INT_MAX] at hmax
  unfold reclamp
  split
  · rfl
  · split
    · exact cSub_of_range (by omega) (by omega)
    · rfl

/-- C3. For a cursor `c ≥ 0` and a new file count `newLen ≥ 0` (an `int`), the re-clamp of
the `WM_APP + 1` handler yields `0` if `newLen == 0`, `newLen - 1` if `newLen > 0` and
`c ≥ newLen`, and `c` otherwise; the result is never negative and is below `newLen` when
`newLen > 0`; and the handler, whenever its scan ends with `fileCount = newLen`, returns
with that count and with `currentIndex` set to this value. -/
theorem rescan_clamp (c newLen : Int) (hc : 0 ≤ c) (hn : 0 ≤ newLen)
    (hmax : newLen ≤ INT_MAX) :
    ∃ r, reclamp newLen c = some r ∧
      r = (if newLen = 0 then 0 else if c ≥ newLen then newLen - 1 else c) ∧
      0 ≤ r ∧ (0 < newLen → r < newLen) ∧
      ∀ (lower : Char → Char) (s s1 : State) (readable : Bool) (l : Listing),
        s.currentIndex = c →
        ScanFolder lower s.folderPath readable l { s with fileCount := 0 } = some s1 →
        s1.fileCount = newLen →
        ∃ s2, WndProc lower s (.WM_APP_1 readable l) = some s2 ∧
          s2.fileCount = newLen ∧ s2.currentIndex = r := by
  refine ⟨_, reclamp_eq c newLen hn hmax, rfl, ?_, ?_, ?_⟩
  · split
    · exact le_refl _
    · split <;> omega
  · intro hpos
    split
    · omega
    · split <;> omega
  · intro lower s s1 readable l hci hscan hcount
    have hfr := ScanFolder_frame hscan
    have hc1 : s1.currentIndex = c := hfr.2.1.trans hci
    have hr := reclamp_eq c newLen hn hmax
    rw [← hcount, ← hc1] at hr
    refine ⟨_, WndProc_rescan lower s s1 readable l _ hscan hr, hcount, ?_⟩
    rw [hcount, hc1]

/-- Witness of C3: cursor 5, and a rescan that finds three files. -/
theorem rescan_clamp_witness :
    ∃ r, reclamp 3 5 = some r ∧
      r = (if (3 : Int) = 0 then 0 else if (5 : Int) ≥ 3 then 3 - 1 else 5) ∧
      0 ≤ r ∧ ((0 : Int) < 3 → r < 3) ∧
      ∀ (lower : Char → Char) (s s1 : State) (readable : Bool) (l : Listing),
        s.currentIndex = 5 →
        ScanFolder lower s.folderPath readable l { s with fileCount := 0 } = some s1 →
        s1.fileCount = 3 →
        ∃ s2, WndProc lower s (.WM_APP_1 readable l) = some s2 ∧
          s2.fileCount = 3 ∧ s2.currentIndex = r :=
  rescan_clamp 5 3 (by decide) (by decide) (by decide)

/-! ## The cursor invariant -/

theorem NavInv.inRange {s : State} (h : NavInv s) (hne : s.fileCount ≠ 0) : InRange s := by
  obtain ⟨h1, h2, h3, _, _⟩ := h
  have hpos : 0 < s.fileCount := by omega
  exact ⟨hpos, h2, (h3 hpos).1, (h3 hpos).2⟩

theorem NavInv.of_step {s : State} (h : NavInv s) (x d : Int)
    (hd : d = 0 ∨ d = 1 ∨ d = -1) (b : Bool) (hne : s.fileCount ≠ 0) :
    NavInv { s with keyDirection := d, currentIndex := x % s.fileCount, keyTimerId := b } := by
  have hpos : 0 < s.fileCount := by have := h.1; omega
  refine ⟨h.1, h.2.1, fun _ => ⟨Int.emod_nonneg _ hne, Int.emod_lt_of_pos _ hpos⟩, ?_, hd⟩
  intro h0
  exact absurd h0 hne

theorem NavInv.step (lower : Char → Char) (s t : State) (m : Msg) (h : NavInv s)
    (hstep : WndProc lower s m = some t) : NavInv t := by
  cases m with
  | WM_KEYDOWN w =>
    by_cases h0 : s.fileCount = 0
    · -- on the empty set only the keys without a step return
      simp only [WndProc, h0] at hstep
      split at hstep
      · cases hstep; exact h
      · split at hstep
        · cases hc : cAdd s.currentIndex 1 <;> simp [hc, cMod_zero] at hstep
        · split at hstep
          · cases hc : cSub s.currentIndex 1 with
            | none => simp [hc] at hstep
            | some a => cases hc2 : cAdd a 0 <;> simp [hc, hc2, cMod_zero] at hstep
          · cases hstep; exact h
    · have hr := h.inRange h0
      by_cases hw1 : w = VK_RIGHT
      · subst hw1
        rw [WndProc_right lower s hr] at hstep
        cases hstep
        exact h.of_step _ 1 (Or.inr (Or.inl rfl)) true h0
      · by_cases hw2 : w = VK_LEFT
        · subst hw2
          rw [WndProc_left lower s hr] at hstep
          cases hstep
          exact h.of_step _ (-1) (Or.inr (Or.inr rfl)) true h0
        · simp only [WndProc, hw1, hw2, if_false] at hstep
          split at hstep <;> (cases hstep; exact h)
  | WM_KEYUP w =>
    by_cases hm : (w = VK_RIGHT ∧ s.keyDirection = 1) ∨ (w = VK_LEFT ∧ s.keyDirection = -1)
    · rw [WndProc_keyup_match lower s w hm] at hstep
      cases hstep
      exact ⟨h.1, h.2.1, h.2.2.1, h.2.2.2.1, Or.inl rfl⟩
    · rw [WndProc_keyup_other lower s w hm] at hstep
      cases hstep
      exact h
  | WM_APP_1 readable l =>
    simp only [WndProc] at hstep
    cases hs : ScanFolder lower s.folderPath readable l { s with fileCount := 0 } with
    | none => simp [hs] at hstep
    | some s1 =>
      have hfr := ScanFolder_frame hs
      have hc1 : s1.currentIndex = s.currentIndex := hfr.2.1
      have hk1 : s1.keyDirection = s.keyDirection := hfr.2.2.1
      have hlo : 0 ≤ s1.fileCount := hfr.2.2.2.2.1
      have hhi : s1.fileCount ≤ MAX_FILES := hfr.2.2.2.2.2 (by simp [MAX_FILES])
      have hc0 : 0 ≤ s.currentIndex := by
        rcases lt_or_eq_of_le h.1 with hp | hz
        · exact (h.2.2.1 hp).1
        · exact le_of_eq (h.2.2.2.1 hz.symm).symm
      have hre := reclamp_eq s1.currentIndex s1.fileCount hlo
        (by simp only [MAX_FILES] at hhi; simp only [INT_MAX]; omega)
      simp [hs, hre] at hstep
      subst hstep
      refine ⟨hlo, hhi, ?_, ?_, hk1 ▸ h.2.2.2.2⟩
      · intro hpos
        have hpos : 0 < s1.fileCount := hpos
        show 0 ≤ (if s1.fileCount = 0 then 0
            else if s1.currentIndex ≥ s1.fileCount then s1.fileCount - 1 else s1.currentIndex) ∧
          (if s1.fileCount = 0 then 0
            else if s1.currentIndex ≥ s1.fileCount then s1.fileCount - 1 else s1.currentIndex)
            < s1.fileCount
        rw [hc1]
        split
        · omega
        · split <;> omega
      · intro hz
        have hz : s1.fileCount = 0 := hz
        show (if s1.fileCount = 0 then 0
            else if s1.currentIndex ≥ s1.fileCount then s1.fileCount - 1 else s1.currentIndex)
          = 0
        rw [if_pos hz]
  | WM_TIMER w =>
    by_cases h0 : s.fileCount = 0
    · simp only [WndProc, h0] at hstep
      split at hstep
      · cases hc : cAdd s.currentIndex 1 <;> simp [hc, cMod_zero] at hstep
      · split at hstep
        · cases hc : cAdd s.currentIndex s.keyDirection with
          | none => simp [hc] at hstep
          | some a => cases hc2 : cAdd a 0 <;> simp [hc, hc2, cMod_zero] at hstep
        · cases hstep; exact h
    · have hr := h.inRange h0
      by_cases hw1 : w = 1
      · subst hw1
        rw [WndProc_timer1 lower s hr] at hstep
        cases hstep
        have := h.of_step (s.currentIndex + 1) s.keyDirection h.2.2.2.2 s.keyTimerId h0
        exact this
      · by_cases hw2 : w = 2 ∧ s.keyDirection ≠ 0
        · obtain ⟨rfl, hk⟩ := hw2
          have hd : s.keyDirection = 1 ∨ s.keyDirection = -1 := by
            rcases h.2.2.2.2 with h1 | h1 | h1
            · exact absurd h1 hk
            · exact Or.inl h1
            · exact Or.inr h1
          rw [WndProc_timer2 lower s hr hd] at hstep
          cases hstep
          exact h.of_step _ s.keyDirection h.2.2.2.2 s.keyTimerId h0
        · simp only [WndProc, hw1, hw2, if_false] at hstep
          cases hstep
          exact h

theorem NavInv.run (lower : Char → Char) (ms : List Msg) :
    ∀ s t : State, NavInv s → run lower s ms = some t → NavInv t := by
  induction ms with
  | nil =>
    intro s t h hr
    cases hr
    exact h
  | cons m ms ih =>
    intro s t h hr
    simp only [Slideshow.run] at hr
    cases hs : WndProc lower s m with
    | none => simp [hs] at hr
    | some s1 =>
      simp [hs] at hr
      exact ih s1 t (NavInv.step lower s s1 m h hs) hr

/-- The state in which `wWinMain` enters its message loop — the first scan, started from
the initial globals, has found at least one file — is a state with
`0 < fileCount ≤ MAX_FILES`, `currentIndex = 0` and no arrow key held. -/
theorem startup_state (lower : Char → Char) (folderPath : WStr) (readable : Bool)
    (l : Listing) (s0 : State)
    (hscan : ScanFolder lower folderPath readable l (initState folderPath) = some s0)
    (hne : s0.fileCount ≠ 0) :
    0 < s0.fileCount ∧ s0.fileCount ≤ MAX_FILES ∧ s0.currentIndex = 0 ∧
      s0.keyDirection = 0 := by
  obtain ⟨_, h2, h3, _, h5, h6⟩ := ScanFolder_frame hscan
  have h0 : (0 : Int) ≤ s0.fileCount := h5
  have h7 : (0 : Int) ≤ MAX_FILES := by decide
  exact ⟨lt_of_le_of_ne h0 (Ne.symm hne), h6 h7, h2, h3⟩

/-- C1. From a startup state (`0 < fileCount ≤ MAX_FILES`, `currentIndex = 0`, no arrow key
held), after any sequence of `WM_KEYDOWN`, `WM_KEYUP`, `WM_TIMER` and `WM_APP + 1`
messages (any `wParam`, any directory contents found by the rescan) that `WndProc` has
handled, the cursor satisfies `0 ≤ currentIndex < fileCount` when `fileCount > 0` and is
`0` when `fileCount == 0`; the count itself stays within `[0, MAX_FILES]`. -/
theorem cursor_range_invariant (lower : Char → Char) (s0 : State)
    (hpos : 0 < s0.fileCount) (hmax : s0.fileCount ≤ MAX_FILES)
    (hcur : s0.currentIndex = 0) (hdir : s0.keyDirection = 0)
    (ms : List Msg) (s : State) (hrun : run lower s0 ms = some s) :
    (0 < s.fileCount → 0 ≤ s.currentIndex ∧ s.currentIndex < s.fileCount) ∧
    (s.fileCount = 0 → s.currentIndex = 0) ∧
    0 ≤ s.fileCount ∧ s.fileCount ≤ MAX_FILES := by
  have h0 : NavInv s0 := by
    refine ⟨le_of_lt hpos, hmax, fun _ => ?_, fun h => ?_, Or.inl hdir⟩
    · rw [hcur]; exact ⟨le_refl _, hpos⟩
    · exact hcur
  have h := NavInv.run lower ms s0 s h0 hrun
  exact ⟨h.2.2.1, h.2.2.2.1, h.1, h.2.1⟩

/-- Witness of C1: left arrow down (the cursor wraps to 1), an auto-advance tick (back to
0), a key-repeat tick (to 1 again), then a rescan that finds only a text file. -/
theorem cursor_range_invariant_witness :
    (0 < sampleEmpty.fileCount →
      0 ≤ sampleEmpty.currentIndex ∧ sampleEmpty.currentIndex < sampleEmpty.fileCount) ∧
    (sampleEmpty.fileCount = 0 → sampleEmpty.currentIndex = 0) ∧
    0 ≤ sampleEmpty.fileCount ∧ sampleEmpty.fileCount ≤ MAX_FILES :=
  cursor_range_invariant Char.toLower sampleStart (by decide) (by decide) rfl rfl
    [.WM_KEYDOWN VK_LEFT, .WM_TIMER 1, .WM_TIMER 2,
      .WM_APP_1 true (.file "a.txt".toList .nil)]
    sampleEmpty rfl

/-- Witness of C8 with `d = 1` on `sampleStart`: right arrow down, then left arrow
down. -/
theorem last_key_wins_witness :
    ∃ s1 s2,
      WndProc Char.toLower sampleStart (.WM_KEYDOWN (arrowKey 1)) = some s1 ∧
      s1.currentIndex = (sampleStart.currentIndex + 1) % sampleStart.fileCount ∧
      s1.keyDirection = 1 ∧ s1.keyTimerId = true ∧
      WndProc Char.toLower s1 (.WM_KEYDOWN (arrowKey (-1))) = some s2 ∧
      s2.currentIndex = (s1.currentIndex - 1) % sampleStart.fileCount ∧
      s2.keyDirection = -1 ∧ s2.keyTimerId = true ∧
      ∀ k : Nat, ∃ t,
        run Char.toLower s2 (List.replicate k (.WM_TIMER 2)) = some t ∧
        t.currentIndex = (s2.currentIndex - k * 1) % sampleStart.fileCount ∧
        t.keyDirection = -1 ∧ t.keyTimerId = true ∧
        WndProc Char.toLower t (.WM_KEYUP (arrowKey 1)) = some t ∧
        (∀ w : Nat, w ≠ arrowKey (-1) → WndProc Char.toLower t (.WM_KEYUP w) = some t) ∧
        ∃ u, WndProc Char.toLower t (.WM_KEYUP (arrowKey (-1))) = some u ∧
          u.keyDirection = 0 ∧ u.keyTimerId = false ∧
          u.currentIndex = t.currentIndex ∧ u.fileCount = t.fileCount ∧
          ∀ j : Nat, run Char.toLower u (List.replicate j (.WM_TIMER 2)) = some u :=
  last_key_wins Char.toLower sampleStart 1 (Or.inl rfl)
    ⟨by decide, by decide, by decide, by decide⟩

/-! ## Steps on an empty image set -/

/-- C2 (the code does not meet it). In the state a rescan leaves when it finds no image,
`fileCount == 0` and `currentIndex == 0`, each stepping handler computes its sum and then
takes it `% fileCount` with a zero divisor (`1 % 0`, `-1 % 0`), so it has no successor
state: the right-arrow and left-arrow key-downs, the auto-advance tick, and the key-repeat
tick while an arrow key is held. Concretely, from `sampleStart` a rescan of an empty
folder gives `fileCount = 0` and `currentIndex = 0`, and the next auto-advance tick, arrow
key-down or key-repeat tick faults. -/
theorem empty_set_step_faults :
    (∀ (lower : Char → Char) (s : State),
      WndProc lower { s with fileCount := 0, currentIndex := 0 } (.WM_KEYDOWN VK_RIGHT)
        = none ∧
      WndProc lower { s with fileCount := 0, currentIndex := 0 } (.WM_KEYDOWN VK_LEFT)
        = none ∧
      WndProc lower { s with fileCount := 0, currentIndex := 0 } (.WM_TIMER 1) = none ∧
      WndProc lower { s with fileCount := 0, currentIndex := 0, keyDirection := 1 }
        (.WM_TIMER 2) = none ∧
      WndProc lower { s with fileCount := 0, currentIndex := 0, keyDirection := -1 }
        (.WM_TIMER 2) = none) ∧
    cAdd 0 1 = some 1 ∧ cMod 1 0 = none ∧
    (cSub 0 1).bind (fun t => cAdd t 0) = some (-1) ∧ cMod (-1) 0 = none ∧
    (∃ s, run Char.toLower sampleStart [.WM_APP_1 true .nil] = some s ∧
      s.fileCount = 0 ∧ s.currentIndex = 0) ∧
    run Char.toLower sampleStart [.WM_APP_1 true .nil, .WM_TIMER 1] = none ∧
    run Char.toLower sampleStart [.WM_APP_1 true .nil, .WM_KEYDOWN VK_RIGHT] = none ∧
    run Char.toLower sampleStart [.WM_APP_1 true .nil, .WM_KEYDOWN VK_LEFT] = none ∧
    run Char.toLower sampleStart
      [.WM_KEYDOWN VK_RIGHT, .WM_APP_1 true .nil, .WM_TIMER 2] = none := by
  refine ⟨fun lower s => ⟨rfl, rfl, rfl, rfl, rfl⟩, rfl, rfl, rfl, rfl,
    ⟨_, rfl, rfl, rfl⟩, rfl, rfl, rfl, rfl⟩

/-! ## Extensions -/

theorem FindExtensionW.loop_no_dot (rest : WStr) (dot : Option WStr) (h : '.' ∉ rest) :
    FindExtensionW.loop rest dot = dot.getD [] := by
  induction rest generalizing dot with
  | nil => cases dot <;> rfl
  | cons c rest ih =>
    have hc : c ≠ '.' := fun e => h (e ▸ List.mem_cons_self _ _)
    have hr : '.' ∉ rest := fun e => h (List.mem_cons_of_mem _ e)
    simp only [FindExtensionW.loop, if_neg hc]
    exact ih dot hr

theorem FindExtensionW.loop_append (pre suf : WStr) (dot : Option WStr) (h : '.' ∉ suf) :
    FindExtensionW.loop (pre ++ '.' :: suf) dot = '.' :: suf := by
  induction pre generalizing dot with
  | nil =>
    simp only [List.nil_append, FindExtensionW.loop, if_true]
    rw [FindExtensionW.loop_no_dot suf _ h]
    rfl
  | cons c pre ih =>
    simp only [List.cons_append, FindExtensionW.loop]
    split
    · exact ih _
    · exact ih _

theorem FindExtensionW_eq {name ext : WStr} (h : IsLastDotSuffix name ext) :
    FindExtensionW name = ext := by
  rcases h with ⟨h1, rfl⟩ | ⟨pre, suf, rfl, h2, rfl⟩
  · exact FindExtensionW.loop_no_dot name none h1
  · exact FindExtensionW.loop_append pre suf none h2

theorem FindExtensionW_isLastDotSuffix (name : WStr) :
    IsLastDotSuffix name (FindExtensionW name) := by
  suffices h : ∃ ext, IsLastDotSuffix name ext by
    obtain ⟨ext, he⟩ := h
    rw [FindExtensionW_eq he]
    exact he
  induction name with
  | nil => exact ⟨[], Or.inl ⟨List.not_mem_nil _, rfl⟩⟩
  | cons c rest ih =>
    obtain ⟨ext, he⟩ := ih
    rcases he with ⟨h1, rfl⟩ | ⟨pre, suf, rfl, h2, rfl⟩
    · by_cases hc : c = '.'
      · subst hc
        exact ⟨'.' :: rest, Or.inr ⟨[], rest, rfl, h1, rfl⟩⟩
      · refine ⟨[], Or.inl ⟨?_, rfl⟩⟩
        intro hm
        rcases List.mem_cons.1 hm with e | e
        · exact hc e.symm
        · exact h1 e
    · exact ⟨'.' :: suf, Or.inr ⟨c :: pre, suf, rfl, h2, rfl⟩⟩

theorem extAllowed_iff (ext : WStr) : extAllowed ext = true ↔ ext ∈ allowList := by
  simp [extAllowed, allowList, or_assoc]

/-- C9. Let `lower` be the character map of `CharLowerW`, lower-casing the ASCII letters
as usual. For every file name and its extension `ext` — the suffix starting at the last
`.`, or the empty string when there is no `.` — with `ext` shorter than 16 characters,
`IsImageFile` returns, and returns true if and only if `ext`, lower-cased, is one of
`.jpg`, `.jpeg`, `.png`, `.bmp`, `.gif`. So `A.JPG` and `x.tar.Png` are accepted, and
`photo.jpg.txt`, `jpg` and `a.jpgx` are rejected. -/
theorem IsImageFile_allow_list (lower : Char → Char)
    (hl : ∀ c : Char, c.val < 128 → lower c = c.toLower) :
    (∀ name ext : WStr, IsLastDotSuffix name ext → ext.length < 16 →
      ∃ b, IsImageFile lower name = some b ∧
        (b = true ↔ ext.map lower = ".jpg".toList ∨ ext.map lower = ".jpeg".toList ∨
          ext.map lower = ".png".toList ∨ ext.map lower = ".bmp".toList ∨
          ext.map lower = ".gif".toList)) ∧
    IsImageFile lower "A.JPG".toList = some true ∧
    IsImageFile lower "x.tar.Png".toList = some true ∧
    IsImageFile lower "photo.jpg.txt".toList = some false ∧
    IsImageFile lower "jpg".toList = some false ∧
    IsImageFile lower "a.jpgx".toList = some false := by
  have gen : ∀ name ext : WStr, IsLastDotSuffix name ext → ext.length < 16 →
      IsImageFile lower name = some (extAllowed (ext.map lower)) := by
    intro name ext he hlen
    simp [IsImageFile, FindExtensionW_eq he, lstrcpyW, hlen]
  have low : ∀ cs : WStr, (∀ c ∈ cs, c.val < 128) → cs.map lower = cs.map Char.toLower := by
    intro cs hcs
    exact List.map_congr_left (fun c hc => hl c (hcs c hc))
  refine ⟨?_, ?_, ?_, ?_, ?_, ?_⟩
  · intro name ext he hlen
    refine ⟨_, gen name ext he hlen, ?_⟩
    rw [extAllowed_iff]
    simp [allowList]
  · rw [gen "A.JPG".toList ".JPG".toList (Or.inr ⟨['A'], "JPG".toList, rfl, by decide, rfl⟩)
      (by decide), low _ (by decide)]
    decide
  · rw [gen "x.tar.Png".toList ".Png".toList
      (Or.inr ⟨"x.tar".toList, "Png".toList, rfl, by decide, rfl⟩) (by decide),
      low _ (by decide)]
    decide
  · rw [gen "photo.jpg.txt".toList ".txt".toList
      (Or.inr ⟨"photo.jpg".toList, "txt".toList, rfl, by decide, rfl⟩) (by decide),
      low _ (by decide)]
    decide
  · rw [gen "jpg".toList [] (Or.inl ⟨by decide, rfl⟩) (by decide), List.map_nil]
    decide
  · rw [gen "a.jpgx".toList ".jpgx".toList
      (Or.inr ⟨['a'], "jpgx".toList, rfl, by decide, rfl⟩) (by decide), low _ (by decide)]
    decide

/-- Witness of C9 with the ASCII lower-casing `Char.toLower` for `CharLowerW`. -/
theorem IsImageFile_allow_list_witness :
    (∀ name ext : WStr, IsLastDotSuffix name ext → ext.length < 16 →
      ∃ b, IsImageFile Char.toLower name = some b ∧
        (b = true ↔ ext.map Char.toLower = ".jpg".toList ∨
          ext.map Char.toLower = ".jpeg".toList ∨
          ext.map Char.toLower = ".png".toList ∨ ext.map Char.toLower = ".bmp".toList ∨
          ext.map Char.toLower = ".gif".toList)) ∧
    IsImageFile Char.toLower "A.JPG".toList = some true ∧
    IsImageFile Char.toLower "x.tar.Png".toList = some true ∧
    IsImageFile Char.toLower "photo.jpg.txt".toList = some false ∧
    IsImageFile Char.toLower "jpg".toList = some false ∧
    IsImageFile Char.toLower "a.jpgx".toList = some false :=
  IsImageFile_allow_list Char.toLower (fun _ _ => rfl)

/-! ## The scan in discovery order -/

theorem take_take_append (n : Nat) (xs ys : List WStr) :
    ((xs.take n) ++ ys).take n = (xs ++ ys).take n := by
  by_cases h : xs.length ≤ n
  · rw [List.take_of_length_le h]
  · have h1 : n ≤ xs.length := by omega
    have h2 : (xs.take n).length = n := by simp [h1]
    rw [List.take_append_of_le_length (by omega), List.take_append_of_le_length h1,
      List.take_take, min_self]

theorem liveFiles_length (s : State) : (liveFiles s).length = s.fileCount.toNat := by
  simp [liveFiles]

theorem AddFile_live (path : WStr) (s : State) (h0 : 0 ≤ s.fileCount)
    (hmax : s.fileCount ≤ MAX_FILES) (hlen : path.length < MAX_PATH) :
    ∃ t, AddFile path s = some t ∧
      liveFiles t = (liveFiles s ++ [path]).take MAX_FILES.toNat := by
  by_cases hlt : s.fileCount < MAX_FILES
  · have hadd : cAdd s.fileCount 1 = some (s.fileCount + 1) := by
      simp only [MAX_FILES] at hlt
      exact cAdd_of_range (by omega) (by omega)
    refine ⟨{ s with
              fileList := fun i => if i = s.fileCount.toNat then path else s.fileList i
              fileCount := s.fileCount + 1 },
      by simp [AddFile, hlt, h0, lstrcpyW, hlen, hadd], ?_⟩
    have hn : (s.fileCount + 1).toNat = s.fileCount.toNat + 1 := by omega
    have hle : (liveFiles s ++ [path]).length ≤ MAX_FILES.toNat := by
      simp only [List.length_append, liveFiles_length, List.length_singleton]
      simp only [MAX_FILES] at hlt ⊢
      omega
    rw [List.take_of_length_le hle]
    simp only [liveFiles, hn, List.range_succ, List.map_append, List.map_cons, List.map_nil,
      if_true]
    congr 1
    apply List.map_congr_left
    intro i hi
    have : i ≠ s.fileCount.toNat := by
      have := List.mem_range.1 hi
      omega
    simp [this]
  · have heq : s.fileCount = MAX_FILES := le_antisymm hmax (not_lt.1 hlt)
    refine ⟨s, by simp [AddFile, hlt], ?_⟩
    have hl : (liveFiles s).length = MAX_FILES.toNat := by rw [liveFiles_length, heq]
    rw [List.take_append_of_le_length (le_of_eq hl.symm), List.take_of_length_le (le_of_eq hl)]

theorem ScanFolder.loop_dfs (lower : Char → Char) (l : Listing) :
    ∀ (path : WStr) (s : State), Fits path l → 0 ≤ s.fileCount →
      s.fileCount ≤ MAX_FILES →
      ∃ t, ScanFolder.loop lower path l s = some t ∧
        liveFiles t = (liveFiles s ++ dfsListing lower path l).take MAX_FILES.toNat := by
  induction l with
  | nil =>
    intro path s _ _ hmax
    refine ⟨s, rfl, ?_⟩
    simp only [dfsListing, List.append_nil]
    rw [List.take_of_length_le]
    rw [liveFiles_length]
    simp only [MAX_FILES] at hmax ⊢
    omega
  | file name rest ih =>
    intro path s hf h0 hmax
    obtain ⟨hhere, hrest⟩ := hf
    cases hd : isDotEntry name with
    | true =>
      simp only [ScanFolder.loop, dfsListing, hd, if_true]
      exact ih path s hrest h0 hmax
    | false =>
      obtain ⟨hp, he⟩ := hhere hd
      have hj : joinPath path name = some (path ++ '\\' :: name) := by
        simp only [joinPath, lstrcpyW]
        rw [if_pos hp]
      have hi : IsImageFile lower name = some (accepted lower name) := by
        simp [IsImageFile, lstrcpyW, he, accepted]
      cases ha : accepted lower name with
      | false =>
        have e : ScanFolder.loop lower path (.file name rest) s
            = ScanFolder.loop lower path rest s := by
          simp [ScanFolder.loop, hd, hj, hi, ha]
        rw [e]
        simp only [dfsListing, hd, ha]
        simpa using ih path s hrest h0 hmax
      | true =>
        obtain ⟨s1, hs1, hl1⟩ := AddFile_live (path ++ '\\' :: name) s h0 hmax hp
        have hfr := AddFile_frame hs1
        obtain ⟨t, ht, hlt⟩ := ih path s1 hrest (le_trans h0 hfr.2.2.2.2.1)
          (hfr.2.2.2.2.2 hmax)
        have e : ScanFolder.loop lower path (.file name rest) s
            = ScanFolder.loop lower path rest s1 := by
          simp [ScanFolder.loop, hd, hj, hi, ha, hs1]
        refine ⟨t, e.trans ht, ?_⟩
        simp only [dfsListing, hd, ha]
        rw [hlt, hl1, take_take_append]
        simp
  | dir name readable sub rest ihs ihr =>
    intro path s hf h0 hmax
    obtain ⟨hhere, hrest⟩ := hf
    cases hd : isDotEntry name with
    | true =>
      simp only [ScanFolder.loop, dfsListing, hd, if_true]
      exact ihr path s hrest h0 hmax
    | false =>
      obtain ⟨hp, hsub⟩ := hhere hd
      have hj : joinPath path name = some (path ++ '\\' :: name) := by
        simp only [joinPath, lstrcpyW]
        rw [if_pos (by omega)]
      have hq : searchPattern (path ++ '\\' :: name)
          = some ((path ++ '\\' :: name) ++ ['\\', '*']) := by
        simp only [searchPattern, lstrcpyW]
        rw [if_pos (by simp only [List.length_append, List.length_cons, List.length_nil] at hp ⊢
                       omega)]
      cases readable with
      | false =>
        have e : ScanFolder.loop lower path (.dir name false sub rest) s
            = ScanFolder.loop lower path rest s := by
          simp [ScanFolder.loop, hd, hj, hq]
        rw [e]
        simp only [dfsListing, hd]
        simpa using ihr path s hrest h0 hmax
      | true =>
        obtain ⟨s1, hs1, hl1⟩ := ihs (path ++ '\\' :: name) s (hsub rfl) h0 hmax
        have hfr := ScanFolder.loop_frame lower sub _ s s1 hs1
        obtain ⟨t, ht, hlt⟩ := ihr path s1 hrest (le_trans h0 hfr.2.2.2.2.1)
          (hfr.2.2.2.2.2 hmax)
        have e : ScanFolder.loop lower path (.dir name true sub rest) s
            = ScanFolder.loop lower path rest s1 := by
          simp [ScanFolder.loop, hd, hj, hq, hs1]
        refine ⟨t, e.trans ht, ?_⟩
        simp only [dfsListing, hd]
        rw [hlt, hl1, take_take_append]
        simp

/-- Where no buffer is overrun, `ScanFolder` started with `fileCount == 0` returns and
leaves in `fileList[0 .. fileCount)` the first `MAX_FILES` entries of the depth-first
listing, with `fileCount` their number. -/
theorem ScanFolder_dfs (lower : Char → Char) (path : WStr) (l : Listing) (s : State)
    (hpath : path.length + 2 < MAX_PATH) (hf : Fits path l) (h0 : s.fileCount = 0) :
    ∃ t, ScanFolder lower path true l s = some t ∧
      liveFiles t = (dfsListing lower path l).take MAX_FILES.toNat ∧
      t.fileCount = min (dfsListing lower path l).length MAX_FILES.toNat ∧
      t.fileCount ≤ MAX_FILES := by
  obtain ⟨t, ht, hl⟩ := ScanFolder.loop_dfs lower l path s hf (le_of_eq h0.symm)
    (by rw [h0]; decide)
  have hq : searchPattern path = some (path ++ ['\\', '*']) := by
    simp only [searchPattern, lstrcpyW]
    rw [if_pos (by simp only [List.length_append, List.length_cons, List.length_nil]
                   omega)]
  have hfr := ScanFolder.loop_frame lower l path s t ht
  have hlive : liveFiles s = [] := by simp [liveFiles, h0]
  rw [hlive, List.nil_append] at hl
  have hlen := congrArg List.length hl
  rw [liveFiles_length, List.length_take] at hlen
  have hnn : 0 ≤ t.fileCount := h0 ▸ hfr.2.2.2.2.1
  refine ⟨t, by simp [ScanFolder, hq, ht], hl, ?_, hfr.2.2.2.2.2 (by rw [h0]; decide)⟩
  rw [← Int.toNat_of_nonneg hnn, hlen]
  simp [min_comm]

theorem ScanFolder_unreadable (lower : Char → Char) (path : WStr) (l : Listing) (s : State)
    (hpath : path.length + 2 < MAX_PATH) :
    ScanFolder lower path false l s = some s := by
  have hq : searchPattern path = some (path ++ ['\\', '*']) := by
    simp only [searchPattern, lstrcpyW]
    rw [if_pos (by simp only [List.length_append, List.length_cons, List.length_nil]
                   omega)]
  simp [ScanFolder, hq]

/-! ## Viewport fit with exact ratios -/

theorem offset_eq (scr draw : Int) (h0 : 0 ≤ draw) (h1 : draw ≤ scr) (h2 : scr ≤ INT_MAX) :
    (cSub scr draw).bind (fun t => cDiv t 2) = some ((scr - draw) / 2) := by
  simp only [INT_MAX] at h2
  have hs : cSub scr draw = some (scr - draw) := cSub_of_range (by omega) (by omega)
  have hd : cDiv (scr - draw) 2 = some ((scr - draw) / 2) := by
    have h3 : ¬ (scr - draw = INT_MIN ∧ (2 : Int) = -1) := by
      rintro ⟨_, h⟩
      omega
    simp only [cDiv, h3, if_false]
    rw [if_neg (by decide), Int.tdiv_eq_ediv (by omega) (by decide)]
  rw [hs]
  exact hd

theorem truncQ_natCast_div (a b : Nat) (hr : ((a / b : Nat) : Int) ≤ INT_MAX) :
    truncQ ((a : ℚ) / (b : ℚ)) = some ((a / b : Nat) : Int) := by
  have h0 : (0 : ℚ) ≤ (a : ℚ) / (b : ℚ) := by positivity
  simp only [truncQ, if_pos h0, Rat.floor_natCast_div_natCast]
  simp only [INT_MAX] at hr
  have h1 : ((a : Int) / (b : Int)) = ((a / b : Nat) : Int) := by norm_cast
  rw [h1]
  exact intOk_of_range (le_trans (by decide) (Int.ofNat_nonneg _)) hr

theorem ShowImageExact_eq (w h scrW scrH : Nat) (hw : 1 ≤ w) (hh : 1 ≤ h)
    (hsw : 1 ≤ scrW) (hsh : 1 ≤ scrH) (hbw : (scrW : Int) ≤ INT_MAX)
    (hbh : (scrH : Int) ≤ INT_MAX) :
    ShowImageExact w h scrW scrH =
      some (if scrW * h < w * scrH
        then ⟨scrW, (scrW * h / w : Nat), 0, ((scrH : Int) - (scrW * h / w : Nat)) / 2⟩
        else ⟨(scrH * w / h : Nat), scrH, ((scrW : Int) - (scrH * w / h : Nat)) / 2, 0⟩) := by
  have hwq : (0 : ℚ) < w := by exact_mod_cast hw
  have hhq : (0 : ℚ) < h := by exact_mod_cast hh
  have hswq : (0 : ℚ) < scrW := by exact_mod_cast hsw
  have hshq : (0 : ℚ) < scrH := by exact_mod_cast hsh
  have hcond : ((w : ℚ) / h > (scrW : ℚ) / scrH) ↔ scrW * h < w * scrH := by
    rw [gt_iff_lt, div_lt_div_iff₀ hshq hhq]
    exact_mod_cast Iff.rfl
  unfold ShowImageExact
  by_cases hc : scrW * h < w * scrH
  · have hq : (scrW : ℚ) / ((w : ℚ) / h) = ((scrW * h : Nat) : ℚ) / (w : ℚ) := by
      push_cast
      field_simp
    have hle : scrW * h / w ≤ scrH := by
      apply Nat.div_le_of_le_mul
      exact le_of_lt hc
    have hle2 : ((scrW * h / w : Nat) : Int) ≤ scrH := by exact_mod_cast hle
    have ht := truncQ_natCast_div (scrW * h) w (le_trans hle2 hbh)
    have hox := offset_eq scrW scrW (Int.ofNat_nonneg _) (le_refl _) hbw
    have hoy := offset_eq scrH ((scrW * h / w : Nat) : Int) (Int.ofNat_nonneg _) hle2 hbh
    simp only [if_pos (hcond.2 hc), if_pos hc, hq, ht]
    simp only [bind, Option.bind, pure] at hox hoy ⊢
    rw [hox, hoy]
    simp
  · have hq : (scrH : ℚ) * ((w : ℚ) / h) = ((scrH * w : Nat) : ℚ) / (h : ℚ) := by
      push_cast
      field_simp
    have hle : scrH * w / h ≤ scrW := by
      apply Nat.div_le_of_le_mul
      have := not_lt.1 hc
      calc scrH * w = w * scrH := Nat.mul_comm _ _
        _ ≤ scrW * h := this
        _ = h * scrW := Nat.mul_comm _ _
    have hle2 : ((scrH * w / h : Nat) : Int) ≤ scrW := by exact_mod_cast hle
    have ht := truncQ_natCast_div (scrH * w) h (le_trans hle2 hbw)
    have hox := offset_eq scrW ((scrH * w / h : Nat) : Int) (Int.ofNat_nonneg _) hle2 hbw
    have hoy := offset_eq scrH scrH (Int.ofNat_nonneg _) (le_refl _) hbh
    simp only [if_neg (fun hx => hc (hcond.1 hx)), if_neg hc, hq, ht]
    simp only [bind, Option.bind, pure] at hox hoy ⊢
    rw [hox, hoy]
    simp

/-! ## Rounding to `double` -/

set_option maxRecDepth 8000 in
/-- Two quotients as the format stores them: `1.0 / 3.0` is `0x1.5555555555555p-2` and
`60.0 / 29.0` is `0x1.08d3dcb08d3ddp+1`. -/
theorem Dbl.div_samples :
    Dbl.div (Dbl.ofNat 1) (Dbl.ofNat 3) = ⟨0x15555555555555, -54⟩ ∧
    Dbl.div (Dbl.ofNat 60) (Dbl.ofNat 29) = ⟨0x108d3dcb08d3dd, -51⟩ := by
  decide

theorem ilog2_spec (f : Nat) : ∀ n acc : Nat, 1 ≤ n → n ≤ f →
    ∃ k, ilog2 f n acc = acc + k ∧ 2 ^ k ≤ n ∧ n < 2 ^ (k + 1) := by
  induction f with
  | zero =>
    intro n acc h1 h2
    omega
  | succ f ih =>
    intro n acc h1 h2
    by_cases hn : n < 2
    · refine ⟨0, ?_, ?_, ?_⟩
      · simp [ilog2, hn]
      · simpa using h1
      · simpa using hn
    · obtain ⟨k, hk, hlo, hhi⟩ := ih (n / 2) (acc + 1) (by omega) (by omega)
      refine ⟨k + 1, ?_, ?_, ?_⟩
      · simp only [ilog2, if_neg hn, hk]
        omega
      · rw [pow_succ]
        omega
      · rw [pow_succ]
        omega

theorem floorLog2_spec (n : Nat) (h : 1 ≤ n) :
    2 ^ floorLog2 n ≤ n ∧ n < 2 ^ (floorLog2 n + 1) := by
  obtain ⟨k, hk, hlo, hhi⟩ := ilog2_spec n n 0 h (le_refl n)
  have : floorLog2 n = k := by simp [floorLog2, hk]
  rw [this]
  exact ⟨hlo, hhi⟩

theorem roundHalfEven_near (n d : Nat) (hd : 0 < d) :
    2 * (roundHalfEven n d * d) ≤ 2 * n + d ∧ 2 * n ≤ 2 * (roundHalfEven n d * d) + d := by
  have hdm := Nat.div_add_mod n d
  have hlt := Nat.mod_lt n hd
  have hmul : (n / d + 1) * d = d * (n / d) + d := by ring
  have hmul0 : n / d * d = d * (n / d) := Nat.mul_comm _ _
  unfold roundHalfEven
  simp only
  split
  · rw [hmul0]; omega
  · split
    · rw [hmul]; omega
    · split
      · rw [hmul0]; omega
      · rw [hmul]; omega

theorem roundHalfEven_abs (n d : Nat) (hd : 0 < d) :
    |((roundHalfEven n d : Nat) : ℚ) - (n : ℚ) / (d : ℚ)| ≤ 1 / 2 := by
  obtain ⟨h1, h2⟩ := roundHalfEven_near n d hd
  have hdq : (0 : ℚ) < d := by exact_mod_cast hd
  have h1q : (2 : ℚ) * ((roundHalfEven n d : ℚ) * d) ≤ 2 * n + d := by exact_mod_cast h1
  have h2q : (2 : ℚ) * n ≤ 2 * ((roundHalfEven n d : ℚ) * d) + d := by exact_mod_cast h2
  have ht : (n : ℚ) / d * d = n := div_mul_cancel₀ _ (ne_of_gt hdq)
  rw [abs_le]
  constructor
  · by_contra hcon
    push_neg at hcon
    have h3 := mul_lt_mul_of_pos_right hcon hdq
    rw [sub_mul, ht] at h3
    linarith
  · by_contra hcon
    push_neg at hcon
    have h3 := mul_lt_mul_of_pos_right hcon hdq
    rw [sub_mul, ht] at h3
    linarith

theorem Dbl.round_spec (n d : Nat) (e : Int) (hd : 1 ≤ d)
    (hbig : 2 ^ 52 ≤ n * 2 ^ 128 / d) :
    |(Dbl.round n d e).val - (n : ℚ) / d * 2 ^ e| ≤ (n : ℚ) / d * 2 ^ e * (1 / 2 ^ 53) ∧
    2 ^ 52 ≤ (Dbl.round n d e).m ∧ (Dbl.round n d e).m ≤ 2 ^ 53 := by
  obtain ⟨hlo, hhi⟩ := floorLog2_spec (n * 2 ^ 128 / d)
    (le_trans (Nat.one_le_two_pow) hbig)
  have hL : 52 ≤ floorLog2 (n * 2 ^ 128 / d) := by
    have h1 : 2 ^ 52 < 2 ^ (floorLog2 (n * 2 ^ 128 / d) + 1) := lt_of_le_of_lt hbig hhi
    have h2 := (Nat.pow_lt_pow_iff_right (by decide : 1 < 2)).1 h1
    omega
  obtain ⟨sh, hsh⟩ : ∃ sh, floorLog2 (n * 2 ^ 128 / d) = sh + 52 :=
    ⟨_, (Nat.sub_add_cancel hL).symm⟩
  have hsub : floorLog2 (n * 2 ^ 128 / d) - 52 = sh := by omega
  rw [hsh] at hlo hhi
  -- the scaled quotient lies in [2^52, 2^53)
  have hx1 : 2 ^ 52 * (d * 2 ^ sh) ≤ n * 2 ^ 128 := by
    have h1 : n * 2 ^ 128 / d * d ≤ n * 2 ^ 128 := Nat.div_mul_le_self _ _
    have h2 : 2 ^ (sh + 52) * d ≤ n * 2 ^ 128 / d * d := Nat.mul_le_mul_right d hlo
    calc 2 ^ 52 * (d * 2 ^ sh) = 2 ^ (sh + 52) * d := by ring
      _ ≤ n * 2 ^ 128 := le_trans h2 h1
  have hx2 : n * 2 ^ 128 < 2 ^ 53 * (d * 2 ^ sh) := by
    have h1 : n * 2 ^ 128 < d * (n * 2 ^ 128 / d + 1) := Nat.lt_mul_div_succ _ (by omega)
    have h2 : d * (n * 2 ^ 128 / d + 1) ≤ d * 2 ^ (sh + 52 + 1) := Nat.mul_le_mul_left d hhi
    calc n * 2 ^ 128 < d * 2 ^ (sh + 52 + 1) := lt_of_lt_of_le h1 h2
      _ = 2 ^ 53 * (d * 2 ^ sh) := by ring
  have hD : 0 < d * 2 ^ sh := Nat.mul_pos (by omega) (Nat.two_pow_pos sh)
  have hDq : (0 : ℚ) < ((d * 2 ^ sh : Nat) : ℚ) := by exact_mod_cast hD
  have hr := roundHalfEven_abs (n * 2 ^ 128) (d * 2 ^ sh) hD
  have ht1 : (2 : ℚ) ^ 52 ≤ ((n * 2 ^ 128 : Nat) : ℚ) / ((d * 2 ^ sh : Nat) : ℚ) := by
    rw [le_div_iff₀ hDq]
    exact_mod_cast hx1
  have ht2 : ((n * 2 ^ 128 : Nat) : ℚ) / ((d * 2 ^ sh : Nat) : ℚ) < (2 : ℚ) ^ 53 := by
    rw [div_lt_iff₀ hDq]
    exact_mod_cast hx2
  obtain ⟨hr1, hr2⟩ := abs_le.1 hr
  have hm : (Dbl.round n d e).m = roundHalfEven (n * 2 ^ 128) (d * 2 ^ sh) := by
    simp only [Dbl.round, hsub]
  have he : (Dbl.round n d e).e = e + sh - 128 := by
    simp only [Dbl.round, hsub]
  have hm1 : 2 ^ 52 ≤ roundHalfEven (n * 2 ^ 128) (d * 2 ^ sh) := by
    have h1 : ((2 ^ 52 - 1 : Nat) : ℚ) < (roundHalfEven (n * 2 ^ 128) (d * 2 ^ sh) : ℚ) := by
      have h0 : ((2 ^ 52 - 1 : Nat) : ℚ) = 2 ^ 52 - 1 := by norm_num
      rw [h0]
      generalize ((n * 2 ^ 128 : Nat) : ℚ) / ((d * 2 ^ sh : Nat) : ℚ) = t at ht1 hr1
      generalize (roundHalfEven (n * 2 ^ 128) (d * 2 ^ sh) : ℚ) = R at hr1 ⊢
      linarith
    have h2 : 2 ^ 52 - 1 < roundHalfEven (n * 2 ^ 128) (d * 2 ^ sh) := by exact_mod_cast h1
    omega
  have hm2 : roundHalfEven (n * 2 ^ 128) (d * 2 ^ sh) ≤ 2 ^ 53 := by
    have h1 : (roundHalfEven (n * 2 ^ 128) (d * 2 ^ sh) : ℚ) < ((2 ^ 53 + 1 : Nat) : ℚ) := by
      have h0 : ((2 ^ 53 + 1 : Nat) : ℚ) = 2 ^ 53 + 1 := by norm_num
      rw [h0]
      generalize ((n * 2 ^ 128 : Nat) : ℚ) / ((d * 2 ^ sh : Nat) : ℚ) = t at ht2 hr2
      generalize (roundHalfEven (n * 2 ^ 128) (d * 2 ^ sh) : ℚ) = R at hr2 ⊢
      linarith
    have h2 : roundHalfEven (n * 2 ^ 128) (d * 2 ^ sh) < 2 ^ 53 + 1 := by exact_mod_cast h1
    omega
  refine ⟨?_, hm ▸ hm1, hm ▸ hm2⟩
  -- value of the rounded number against the exact one
  have hP : (0 : ℚ) < (2 : ℚ) ^ (e + sh - 128) := zpow_pos (by norm_num) _
  have hdq : (0 : ℚ) < (d : ℚ) := by exact_mod_cast hd
  have hv : (n : ℚ) / d * 2 ^ e
      = ((n * 2 ^ 128 : Nat) : ℚ) / ((d * 2 ^ sh : Nat) : ℚ) * (2 : ℚ) ^ (e + sh - 128) := by
    have h2 : (2 : ℚ) ≠ 0 := by norm_num
    rw [zpow_sub₀ h2, zpow_add₀ h2, zpow_natCast]
    push_cast
    have h128 : (2 : ℚ) ^ (128 : ℤ) = (2 : ℚ) ^ (128 : ℕ) := by norm_cast
    rw [h128]
    field_simp
    ring
  have hval : (Dbl.round n d e).val
      = (roundHalfEven (n * 2 ^ 128) (d * 2 ^ sh) : ℚ) * (2 : ℚ) ^ (e + sh - 128) := by
    simp only [Dbl.val, hm, he]
  rw [hval, hv, ← sub_mul, abs_mul, abs_of_pos hP]
  have h53 : (1 : ℚ) / 2
      ≤ ((n * 2 ^ 128 : Nat) : ℚ) / ((d * 2 ^ sh : Nat) : ℚ) * (1 / 2 ^ 53) := by
    have : (1 : ℚ) / 2 = 2 ^ 52 * (1 / 2 ^ 53) := by norm_num
    rw [this]
    exact mul_le_mul_of_nonneg_right ht1 (by positivity)
  calc |(roundHalfEven (n * 2 ^ 128) (d * 2 ^ sh) : ℚ)
          - ((n * 2 ^ 128 : Nat) : ℚ) / ((d * 2 ^ sh : Nat) : ℚ)| * (2 : ℚ) ^ (e + sh - 128)
      ≤ 1 / 2 * (2 : ℚ) ^ (e + sh - 128) := mul_le_mul_of_nonneg_right hr (le_of_lt hP)
    _ ≤ ((n * 2 ^ 128 : Nat) : ℚ) / ((d * 2 ^ sh : Nat) : ℚ) * (1 / 2 ^ 53)
          * (2 : ℚ) ^ (e + sh - 128) := mul_le_mul_of_nonneg_right h53 (le_of_lt hP)
    _ = ((n * 2 ^ 128 : Nat) : ℚ) / ((d * 2 ^ sh : Nat) : ℚ) * (2 : ℚ) ^ (e + sh - 128)
          * (1 / 2 ^ 53) := by ring

theorem Dbl.gt_iff (a b : Dbl) : Dbl.gt a b = true ↔ b.val < a.val := by
  have h2 : (2 : ℚ) ≠ 0 := by norm_num
  have key : ∀ c : Dbl, min a.e b.e ≤ c.e →
      c.val = ((c.m * 2 ^ (c.e - min a.e b.e).toNat : Nat) : ℚ) * (2 : ℚ) ^ (min a.e b.e) := by
    intro c hc
    have h1 : ((c.e - min a.e b.e).toNat : Int) = c.e - min a.e b.e :=
      Int.toNat_of_nonneg (by omega)
    push_cast
    rw [mul_assoc, ← zpow_natCast, h1, ← zpow_add₀ h2]
    simp [Dbl.val]
  have hP : (0 : ℚ) < (2 : ℚ) ^ (min a.e b.e) := zpow_pos (by norm_num) _
  rw [key a (min_le_left _ _), key b (min_le_right _ _), mul_lt_mul_right hP]
  simp only [Dbl.gt, decide_eq_true_eq]
  exact Nat.cast_lt.symm

theorem Dbl.toInt_le (a : Dbl) (B : Nat) (hB : (B : Int) ≤ INT_MAX)
    (h : a.val < (B : ℚ) + 1) :
    ∃ r, a.toInt = some r ∧ 0 ≤ r ∧ r ≤ (B : Int) := by
  have h2 : (2 : ℚ) ≠ 0 := by norm_num
  obtain ⟨T, hT, hle⟩ : ∃ T : Nat,
      (if 0 ≤ a.e then (a.m : Int) * 2 ^ a.e.toNat else (a.m : Int) / 2 ^ (-a.e).toNat)
        = (T : Int) ∧ (T : ℚ) ≤ a.val := by
    by_cases he : 0 ≤ a.e
    · refine ⟨a.m * 2 ^ a.e.toNat, by simp [he], ?_⟩
      have h1 : (a.e.toNat : Int) = a.e := Int.toNat_of_nonneg he
      push_cast
      rw [← zpow_natCast, h1]
      exact le_refl _
    · refine ⟨a.m / 2 ^ (-a.e).toNat, by simp only [if_neg he]; norm_cast, ?_⟩
      have h1 : ((-a.e).toNat : Int) = -a.e := Int.toNat_of_nonneg (by omega)
      have h3 : a.val = (a.m : ℚ) / ((2 ^ (-a.e).toNat : Nat) : ℚ) := by
        push_cast
        rw [← zpow_natCast, h1, zpow_neg, div_inv_eq_mul]
        rfl
      rw [h3]
      exact Nat.cast_div_le
  have hlt : (T : ℚ) < (B : ℚ) + 1 := lt_of_le_of_lt hle h
  have hlt2 : T < B + 1 := by exact_mod_cast hlt
  have hTB : (T : Int) ≤ B := by exact_mod_cast Nat.lt_succ_iff.1 hlt2
  refine ⟨T, ?_, Int.ofNat_nonneg _, hTB⟩
  simp only [Dbl.toInt, hT]
  simp only [INT_MAX] at hB
  exact intOk_of_range (le_trans (by decide) (Int.ofNat_nonneg _)) (le_trans hTB hB)

/-! ## The fit rectangle stays inside the viewport -/

theorem bound_wide (a b ρ ι dv : ℚ) (ha : 1 ≤ a) (hb1 : 1 ≤ b) (hb : b < 2 ^ 31)
    (hρ : |ρ - a / b| ≤ a / b * (1 / 2 ^ 53)) (hlt : ρ < ι)
    (hdv : |dv - a / ι| ≤ a / ι * (1 / 2 ^ 53)) : dv < b + 1 := by
  have ha0 : 0 < a := by linarith
  have hb0 : 0 < b := by linarith
  have hq0 : 0 < a / b := div_pos ha0 hb0
  have hc0 : (0 : ℚ) < 1 - 1 / 2 ^ 53 := by norm_num
  have h1 : a / b * (1 - 1 / 2 ^ 53) ≤ ρ := by
    have := (abs_le.1 hρ).1
    linarith
  have hqc : 0 < a / b * (1 - 1 / 2 ^ 53) := mul_pos hq0 hc0
  have h2 : a / b * (1 - 1 / 2 ^ 53) < ι := lt_of_le_of_lt h1 hlt
  have hι0 : 0 < ι := lt_trans hqc h2
  have h3 : a / ι < a / (a / b * (1 - 1 / 2 ^ 53)) := div_lt_div_of_pos_left ha0 hqc h2
  have h4 : a / (a / b * (1 - 1 / 2 ^ 53)) = b / (1 - 1 / 2 ^ 53) := by
    field_simp
    ring
  rw [h4] at h3
  have hx0 : 0 < a / ι := div_pos ha0 hι0
  have h5 : dv ≤ a / ι * (1 + 1 / 2 ^ 53) := by
    have := (abs_le.1 hdv).2
    linarith
  have h6 : a / ι * (1 + 1 / 2 ^ 53) < b / (1 - 1 / 2 ^ 53) * (1 + 1 / 2 ^ 53) :=
    mul_lt_mul_of_pos_right h3 (by norm_num)
  have h7 : b / (1 - 1 / 2 ^ 53) * (1 + 1 / 2 ^ 53) ≤ b + 1 := by
    rw [div_mul_eq_mul_div, div_le_iff₀ hc0]
    have : b * (1 / 2 ^ 53) < 2 ^ 31 * (1 / 2 ^ 53) := mul_lt_mul_of_pos_right hb (by norm_num)
    norm_num at this ⊢
    linarith
  linarith

theorem bound_tall (a b ρ ι dv : ℚ) (ha1 : 1 ≤ a) (ha : a < 2 ^ 31) (hb1 : 1 ≤ b)
    (hρ : |ρ - a / b| ≤ a / b * (1 / 2 ^ 53)) (hle : ι ≤ ρ)
    (hdv : |dv - b * ι| ≤ b * ι * (1 / 2 ^ 53)) : dv < a + 1 := by
  have ha0 : 0 < a := by linarith
  have hb0 : 0 < b := by linarith
  have h1 : ρ ≤ a / b * (1 + 1 / 2 ^ 53) := by
    have := (abs_le.1 hρ).2
    linarith
  have h2 : b * ι ≤ a * (1 + 1 / 2 ^ 53) := by
    have h3 : b * ι ≤ b * (a / b * (1 + 1 / 2 ^ 53)) :=
      mul_le_mul_of_nonneg_left (le_trans hle h1) (le_of_lt hb0)
    have h4 : b * (a / b * (1 + 1 / 2 ^ 53)) = a * (1 + 1 / 2 ^ 53) := by
      field_simp
      ring
    rw [h4] at h3
    exact h3
  have h5 : dv ≤ b * ι * (1 + 1 / 2 ^ 53) := by
    have := (abs_le.1 hdv).2
    linarith
  have h6 : b * ι * (1 + 1 / 2 ^ 53) ≤ a * (1 + 1 / 2 ^ 53) * (1 + 1 / 2 ^ 53) :=
    mul_le_mul_of_nonneg_right h2 (by norm_num)
  have h7 : a * (1 + 1 / 2 ^ 53) * (1 + 1 / 2 ^ 53) < a + 1 := by
    have : a * (1 / 2 ^ 53) < 2 ^ 31 * (1 / 2 ^ 53) := mul_lt_mul_of_pos_right ha (by norm_num)
    norm_num at this ⊢
    linarith
  linarith

theorem InsideViewport.of_wide (scrW scrH drawH : Int) (h0 : 0 ≤ drawH) (h1 : drawH ≤ scrH)
    (hw : 0 ≤ scrW) :
    InsideViewport ⟨scrW, drawH, (scrW - scrW) / 2, (scrH - drawH) / 2⟩ scrW scrH := by
  refine ⟨hw, le_refl _, h0, h1, Or.inl rfl, ?_, ?_, ?_, ?_⟩ <;> simp only <;> omega

theorem InsideViewport.of_tall (scrW scrH drawW : Int) (h0 : 0 ≤ drawW) (h1 : drawW ≤ scrW)
    (hh : 0 ≤ scrH) :
    InsideViewport ⟨drawW, scrH, (scrW - drawW) / 2, (scrH - scrH) / 2⟩ scrW scrH := by
  refine ⟨h0, h1, hh, le_refl _, Or.inr rfl, ?_, ?_, ?_, ?_⟩ <;> simp only <;> omega

theorem ShowImage_wide (w h scrW scrH : Nat) (drawH : Int)
    (hg : Dbl.gt (Dbl.div (Dbl.ofNat w) (Dbl.ofNat h))
      (Dbl.div (Dbl.ofNat scrW) (Dbl.ofNat scrH)) = true)
    (ht : Dbl.toInt (Dbl.div (Dbl.ofNat scrW) (Dbl.div (Dbl.ofNat w) (Dbl.ofNat h)))
      = some drawH)
    (h0 : 0 ≤ drawH) (h1 : drawH ≤ scrH) (hbw : (scrW : Int) ≤ INT_MAX)
    (hbh : (scrH : Int) ≤ INT_MAX) :
    ShowImage w h scrW scrH
      = some ⟨scrW, drawH, ((scrW : Int) - scrW) / 2, ((scrH : Int) - drawH) / 2⟩ := by
  have hox := offset_eq scrW scrW (Int.ofNat_nonneg _) (le_refl _) hbw
  have hoy := offset_eq scrH drawH h0 h1 hbh
  simp only [ShowImage, hg, if_true, ht]
  simp only [bind, Option.bind, pure] at hox hoy ⊢
  rw [hox, hoy]

theorem ShowImage_tall (w h scrW scrH : Nat) (drawW : Int)
    (hg : Dbl.gt (Dbl.div (Dbl.ofNat w) (Dbl.ofNat h))
      (Dbl.div (Dbl.ofNat scrW) (Dbl.ofNat scrH)) = false)
    (ht : Dbl.toInt (Dbl.mul (Dbl.ofNat scrH) (Dbl.div (Dbl.ofNat w) (Dbl.ofNat h)))
      = some drawW)
    (h0 : 0 ≤ drawW) (h1 : drawW ≤ scrW) (hbw : (scrW : Int) ≤ INT_MAX)
    (hbh : (scrH : Int) ≤ INT_MAX) :
    ShowImage w h scrW scrH
      = some ⟨drawW, scrH, ((scrW : Int) - drawW) / 2, ((scrH : Int) - scrH) / 2⟩ := by
  have hox := offset_eq scrW drawW h0 h1 hbw
  have hoy := offset_eq scrH scrH (Int.ofNat_nonneg _) (le_refl _) hbh
  simp only [ShowImage, hg, ht]
  simp only [bind, Option.bind, pure] at hox hoy ⊢
  rw [hox, hoy]
  simp

theorem Dbl.div_ofNat_near (n d : Nat) (hn : 1 ≤ n) (hd : 1 ≤ d) (hd32 : d < 2 ^ 32) :
    |(Dbl.div (Dbl.ofNat n) (Dbl.ofNat d)).val - (n : ℚ) / d| ≤ (n : ℚ) / d * (1 / 2 ^ 53) ∧
    2 ^ 52 ≤ (Dbl.div (Dbl.ofNat n) (Dbl.ofNat d)).m ∧
    (Dbl.div (Dbl.ofNat n) (Dbl.ofNat d)).m ≤ 2 ^ 53 := by
  have hbig : 2 ^ 52 ≤ n * 2 ^ 128 / d := by
    rw [Nat.le_div_iff_mul_le (by omega)]
    calc 2 ^ 52 * d ≤ 2 ^ 52 * 2 ^ 32 := Nat.mul_le_mul_left _ (le_of_lt hd32)
      _ ≤ 1 * 2 ^ 128 := by norm_num
      _ ≤ n * 2 ^ 128 := Nat.mul_le_mul_right _ hn
  have h := Dbl.round_spec n d (0 - 0) hd hbig
  simpa [Dbl.div, Dbl.ofNat] using h

theorem ShowImage_inside (w h scrW scrH : Nat) (hw : 1 ≤ w) (hh : 1 ≤ h) (hsw : 1 ≤ scrW)
    (hsh : 1 ≤ scrH) (hh32 : h < 2 ^ 32) (hsw31 : scrW < 2 ^ 31) (hsh31 : scrH < 2 ^ 31) :
    ∃ f, ShowImage w h scrW scrH = some f ∧ InsideViewport f scrW scrH := by
  have h2 : (2 : ℚ) ≠ 0 := by norm_num
  have hbw : (scrW : Int) ≤ INT_MAX := by simp only [INT_MAX]; omega
  have hbh : (scrH : Int) ≤ INT_MAX := by simp only [INT_MAX]; omega
  have hswq : (1 : ℚ) ≤ scrW := by exact_mod_cast hsw
  have hshq : (1 : ℚ) ≤ scrH := by exact_mod_cast hsh
  have hswq31 : (scrW : ℚ) < 2 ^ 31 := by exact_mod_cast hsw31
  have hshq31 : (scrH : ℚ) < 2 ^ 31 := by exact_mod_cast hsh31
  obtain ⟨hin, hm1, hm2⟩ := Dbl.div_ofNat_near w h hw hh hh32
  obtain ⟨hsn, _, _⟩ := Dbl.div_ofNat_near scrW scrH hsw hsh (by omega)
  generalize hir : Dbl.div (Dbl.ofNat w) (Dbl.ofNat h) = ir at hin hm1 hm2
  have hirpos : 0 < ir.val := by
    have : (0 : ℚ) < (ir.m : ℚ) := by
      have : 0 < ir.m := lt_of_lt_of_le (by norm_num) hm1
      exact_mod_cast this
    exact mul_pos this (zpow_pos (by norm_num) _)
  cases hg : Dbl.gt ir (Dbl.div (Dbl.ofNat scrW) (Dbl.ofNat scrH)) with
  | true =>
    have hlt := (Dbl.gt_iff _ _).1 hg
    have hbig : 2 ^ 52 ≤ scrW * 2 ^ 128 / ir.m := by
      rw [Nat.le_div_iff_mul_le (by omega)]
      calc 2 ^ 52 * ir.m ≤ 2 ^ 52 * 2 ^ 53 := Nat.mul_le_mul_left _ hm2
        _ ≤ 1 * 2 ^ 128 := by norm_num
        _ ≤ scrW * 2 ^ 128 := Nat.mul_le_mul_right _ hsw
    obtain ⟨hd, _, _⟩ := Dbl.round_spec scrW ir.m (0 - ir.e) (by omega) hbig
    have hv : (scrW : ℚ) / ir.m * 2 ^ (0 - ir.e) = (scrW : ℚ) / ir.val := by
      rw [zero_sub, zpow_neg, Dbl.val]
      field_simp
    rw [hv] at hd
    have hb := bound_wide scrW scrH _ ir.val _ hswq hshq hshq31 hsn hlt hd
    obtain ⟨r, hr, hr0, hr1⟩ := Dbl.toInt_le _ scrH hbh hb
    refine ⟨_, ShowImage_wide w h scrW scrH r (by rw [hir]; exact hg) (by rw [hir]; exact hr)
      hr0 hr1 hbw hbh, InsideViewport.of_wide _ _ _ hr0 hr1 (Int.ofNat_nonneg _)⟩
  | false =>
    have hle : ir.val ≤ (Dbl.div (Dbl.ofNat scrW) (Dbl.ofNat scrH)).val := by
      by_contra hcon
      push_neg at hcon
      have := (Dbl.gt_iff _ _).2 hcon
      rw [hg] at this
      exact Bool.false_ne_true this
    have hbig : 2 ^ 52 ≤ scrH * ir.m * 2 ^ 128 / 1 := by
      rw [Nat.div_one]
      calc 2 ^ 52 ≤ 1 * 2 ^ 52 * 2 ^ 128 := by norm_num
        _ ≤ scrH * ir.m * 2 ^ 128 :=
          Nat.mul_le_mul_right _ (Nat.mul_le_mul hsh hm1)
    obtain ⟨hd, _, _⟩ := Dbl.round_spec (scrH * ir.m) 1 (0 + ir.e) (le_refl _) hbig
    have hv : ((scrH * ir.m : Nat) : ℚ) / (1 : Nat) * 2 ^ (0 + ir.e) = (scrH : ℚ) * ir.val := by
      rw [zero_add, Dbl.val]
      push_cast
      ring
    rw [hv] at hd
    have hb := bound_tall scrW scrH _ ir.val _ hswq hswq31 hshq hsn hle hd
    obtain ⟨r, hr, hr0, hr1⟩ := Dbl.toInt_le _ scrW hbw hb
    refine ⟨_, ShowImage_tall w h scrW scrH r (by rw [hir]; exact hg) (by rw [hir]; exact hr)
      hr0 hr1 hbw hbh, InsideViewport.of_tall _ _ _ hr0 hr1 (Int.ofNat_nonneg _)⟩

/-- C6. For every image size `w, h ≥ 1` (`UINT`) and viewport size `scrW, scrH ≥ 1`
(`int`), the draw rectangle of `ShowImage` satisfies `0 ≤ drawW ≤ scrW` and
`0 ≤ drawH ≤ scrH`, one of `drawW == scrW`, `drawH == scrH` holds, and the centred
rectangle lies inside the viewport: the offsets are non-negative and
`offsetX + drawW ≤ scrW`, `offsetY + drawH ≤ scrH`. This holds with the ratios taken as
exact rationals and `(int)` as truncation, and it also holds for the `double` arithmetic
of the code. -/
theorem fit_inside_viewport (w h scrW scrH : Nat) (hw : 1 ≤ w) (hh : 1 ≤ h)
    (hsw : 1 ≤ scrW) (hsh : 1 ≤ scrH) (_hw32 : w < 2 ^ 32) (hh32 : h < 2 ^ 32)
    (hsw31 : scrW < 2 ^ 31) (hsh31 : scrH < 2 ^ 31) :
    (∃ f, ShowImageExact w h scrW scrH = some f ∧ InsideViewport f scrW scrH) ∧
    (∃ f, ShowImage w h scrW scrH = some f ∧ InsideViewport f scrW scrH) := by
  refine ⟨?_, ShowImage_inside w h scrW scrH hw hh hsw hsh hh32 hsw31 hsh31⟩
  have hbw : (scrW : Int) ≤ INT_MAX := by simp only [INT_MAX]; omega
  have hbh : (scrH : Int) ≤ INT_MAX := by simp only [INT_MAX]; omega
  refine ⟨_, ShowImageExact_eq w h scrW scrH hw hh hsw hsh hbw hbh, ?_⟩
  split
  · next hc =>
    have hle : scrW * h / w ≤ scrH := Nat.div_le_of_le_mul (le_of_lt hc)
    have hle2 : ((scrW * h / w : Nat) : Int) ≤ scrH := by exact_mod_cast hle
    have h0 : (0 : Int) ≤ ((scrW * h / w : Nat) : Int) := Int.ofNat_nonneg _
    have := InsideViewport.of_wide scrW scrH _ h0 hle2 (Int.ofNat_nonneg _)
    simpa using this
  · next hc =>
    have hle : scrH * w / h ≤ scrW := by
      apply Nat.div_le_of_le_mul
      calc scrH * w = w * scrH := Nat.mul_comm _ _
        _ ≤ scrW * h := not_lt.1 hc
        _ = h * scrW := Nat.mul_comm _ _
    have hle2 : ((scrH * w / h : Nat) : Int) ≤ scrW := by exact_mod_cast hle
    have h0 : (0 : Int) ≤ ((scrH * w / h : Nat) : Int) := Int.ofNat_nonneg _
    have := InsideViewport.of_tall scrW scrH _ h0 hle2 (Int.ofNat_nonneg _)
    simpa using this

set_option maxRecDepth 8000 in
/-- Witness of C6: a 60 by 29 image in a 1920 by 1080 viewport. -/
theorem fit_inside_viewport_witness :
    (∃ f, ShowImageExact 60 29 1920 1080 = some f ∧
      InsideViewport f ((1920 : Nat) : Int) ((1080 : Nat) : Int)) ∧
    (∃ f, ShowImage 60 29 1920 1080 = some f ∧
      InsideViewport f ((1920 : Nat) : Int) ((1080 : Nat) : Int)) :=
  fit_inside_viewport 60 29 1920 1080 (by decide) (by decide) (by decide) (by decide)
    (by decide) (by decide) (by decide) (by decide)

set_option maxRecDepth 8000 in
/-- Counterexample to C7 as stated: for a 60 by 29 image in a 1920 by 1080 viewport the
image is the relatively wider one and `floor(scrW * h / w)` is 928, but the `double`
computation of `ShowImage` yields `drawH = 927` (and `offsetY = 76`). -/
theorem fit_rule_double_counterexample :
    1920 * 29 < 60 * 1080 ∧ 1920 * 29 / 60 = 928 ∧
    ShowImage 60 29 1920 1080 = some ⟨1920, 927, 0, 76⟩ ∧
    ShowImage 60 29 1920 1080
      ≠ some ⟨1920, ((1920 * 29 / 60 : Nat) : Int),
          (1920 - 1920) / 2, (1080 - ((1920 * 29 / 60 : Nat) : Int)) / 2⟩ := by
  decide

set_option maxRecDepth 8000 in
/-- C7 (amended). With the ratios and the scaled sizes taken as exact rationals, for every
image size `w, h ≥ 1` and viewport `scrW, scrH ≥ 1` the fit computation of `ShowImage`
gives `(drawW, drawH) = (scrW, floor(scrW * h / w))` when `w * scrH > scrW * h` and
`(floor(scrH * w / h), scrH)` otherwise, with `offsetX = (scrW - drawW) / 2` and
`offsetY = (scrH - drawH) / 2` by integer division. For the two witnesses the `double`
computation of the code gives the stated numbers as well: 1920x1080 in 1024x768 is drawn
1024x576 at offsets 0, 96, and 1080x1920 is drawn 432x768 at offsets 296, 0. -/
theorem fit_rule_values (w h scrW scrH : Nat) (hw : 1 ≤ w) (hh : 1 ≤ h)
    (hsw : 1 ≤ scrW) (hsh : 1 ≤ scrH) (hsw31 : scrW < 2 ^ 31) (hsh31 : scrH < 2 ^ 31) :
    (∃ f, ShowImageExact w h scrW scrH = some f ∧
      (w * scrH > scrW * h →
        f.drawW = scrW ∧ f.drawH = (scrW * h / w : Nat)) ∧
      (¬ w * scrH > scrW * h →
        f.drawW = (scrH * w / h : Nat) ∧ f.drawH = scrH) ∧
      f.offsetX = ((scrW : Int) - f.drawW) / 2 ∧
      f.offsetY = ((scrH : Int) - f.drawH) / 2) ∧
    ShowImageExact 1920 1080 1024 768 = some ⟨1024, 576, 0, 96⟩ ∧
    ShowImageExact 1080 1920 1024 768 = some ⟨432, 768, 296, 0⟩ ∧
    ShowImage 1920 1080 1024 768 = some ⟨1024, 576, 0, 96⟩ ∧
    ShowImage 1080 1920 1024 768 = some ⟨432, 768, 296, 0⟩ := by
  refine ⟨?_, ?_, ?_, by decide, by decide⟩
  rotate_left
  · rw [ShowImageExact_eq 1920 1080 1024 768 (by decide) (by decide) (by decide) (by decide)
      (by decide) (by decide)]
    decide
  · rw [ShowImageExact_eq 1080 1920 1024 768 (by decide) (by decide) (by decide) (by decide)
      (by decide) (by decide)]
    decide
  have hbw : (scrW : Int) ≤ INT_MAX := by simp only [INT_MAX]; omega
  have hbh : (scrH : Int) ≤ INT_MAX := by simp only [INT_MAX]; omega
  refine ⟨_, ShowImageExact_eq w h scrW scrH hw hh hsw hsh hbw hbh, ?_⟩
  by_cases hc : scrW * h < w * scrH
  · simp [hc]
  · simp [hc]

set_option maxRecDepth 8000 in
/-- Witness of C7 (amended) at the first of the two inputs of the specification. -/
theorem fit_rule_values_witness :
    (∃ f, ShowImageExact 1920 1080 1024 768 = some f ∧
      (1920 * 768 > 1024 * 1080 →
        f.drawW = ((1024 : Nat) : Int) ∧ f.drawH = ((1024 * 1080 / 1920 : Nat) : Int)) ∧
      (¬ 1920 * 768 > 1024 * 1080 →
        f.drawW = ((768 * 1920 / 1080 : Nat) : Int) ∧ f.drawH = ((768 : Nat) : Int)) ∧
      f.offsetX = (((1024 : Nat) : Int) - f.drawW) / 2 ∧
      f.offsetY = (((768 : Nat) : Int) - f.drawH) / 2) ∧
    ShowImageExact 1920 1080 1024 768 = some ⟨1024, 576, 0, 96⟩ ∧
    ShowImageExact 1080 1920 1024 768 = some ⟨432, 768, 296, 0⟩ ∧
    ShowImage 1920 1080 1024 768 = some ⟨1024, 576, 0, 96⟩ ∧
    ShowImage 1080 1920 1024 768 = some ⟨432, 768, 296, 0⟩ :=
  fit_rule_values 1920 1080 1024 768 (by decide) (by decide) (by decide) (by decide)
    (by decide) (by decide)

/-! ## The scan and long names -/

theorem flatFolder_fits (k : Nat) : Fits ['.'] (flatFolder k) := by
  induction k with
  | zero => exact True.intro
  | succ k ih => exact ⟨fun _ => by decide, ih⟩

theorem flatFolder_dfs_length (k : Nat) :
    (dfsListing Char.toLower ['.'] (flatFolder k)).length = k := by
  induction k with
  | zero => rfl
  | succ k ih =>
    have h1 : isDotEntry "a.jpg".toList = false := by decide
    have h2 : accepted Char.toLower "a.jpg".toList = true := by decide
    simp only [flatFolder, dfsListing, h1, h2, if_true, List.length_cons, ih]
    simp [ih]

/-- Every count from 0 to `MAX_FILES` is the outcome of a rescan: the `WM_APP + 1` handler
on a folder `.` that holds that many files named `a.jpg` returns with that count. -/
theorem rescan_count_any (k : Nat) (hk : (k : Int) ≤ MAX_FILES) (s : State)
    (hpath : s.folderPath = ['.']) :
    ∃ t, WndProc Char.toLower s (.WM_APP_1 true (flatFolder k)) = some t ∧
      t.fileCount = k := by
  obtain ⟨t, ht, _, hcount, _⟩ := ScanFolder_dfs Char.toLower ['.'] (flatFolder k)
    { s with fileCount := 0 } (by decide) (flatFolder_fits k) rfl
  have hk2 : t.fileCount = k := by
    rw [hcount, flatFolder_dfs_length]
    simp only [MAX_FILES] at hk
    have h1 : MAX_FILES.toNat = 10000 := by decide
    have h2 : k ≤ 10000 := by omega
    rw [h1]
    simp [min_eq_left h2]
  have hfr := ScanFolder_frame ht
  have hre := reclamp_eq t.currentIndex t.fileCount (by rw [hk2]; exact Int.ofNat_nonneg k)
    (by rw [hk2]; simp only [MAX_FILES] at hk; simp only [INT_MAX]; omega)
  rw [← hpath] at ht
  exact ⟨_, WndProc_rescan Char.toLower s t true (flatFolder k) _ ht hre, hk2⟩

/-- C10 (the code does not meet it). A folder that holds `site.sublime-workspace` and
`a.jpg`: the depth-first listing of the accepted files is the one path of `a.jpg`, but
`ScanFolder` has no result, because `IsImageFile` copies the 18-character extension
`.sublime-workspace` into `WCHAR ext[16]`. The same happens on a path too long for
`WCHAR full[MAX_PATH]`: a 200-character directory name under a 100-character folder
path. -/
theorem scan_overruns_buffers :
    dfsListing Char.toLower ['.']
      (.file "site.sublime-workspace".toList (.file "a.jpg".toList .nil))
      = [".\\a.jpg".toList] ∧
    (FindExtensionW "site.sublime-workspace".toList).length = 18 ∧
    IsImageFile Char.toLower "site.sublime-workspace".toList = none ∧
    ScanFolder Char.toLower ['.'] true
      (.file "site.sublime-workspace".toList (.file "a.jpg".toList .nil))
      (initState ['.']) = none ∧
    ScanFolder Char.toLower (List.replicate 100 'p') true
      (.dir (List.replicate 200 'd') true (.file "a.jpg".toList .nil) .nil)
      (initState (List.replicate 100 'p')) = none := by
  refine ⟨by decide, by decide, by decide, rfl, ?_⟩
  have hj : joinPath (List.replicate 100 'p') (List.replicate 200 'd') = none := by
    simp only [joinPath, lstrcpyW, List.length_append, List.length_cons,
      List.length_replicate, MAX_PATH]
    rfl
  have hq : searchPattern (List.replicate 100 'p')
      = some (List.replicate 100 'p' ++ ['\\', '*']) := by
    simp only [searchPattern, lstrcpyW, List.length_append, List.length_cons,
      List.length_replicate, List.length_nil, MAX_PATH]
    rfl
  have hd : isDotEntry (List.replicate 200 'd') = false := by
    have h1 : (List.replicate 200 'd').length ≠ ['.'].length := by
      rw [List.length_replicate]; decide
    have h2 : (List.replicate 200 'd').length ≠ ['.', '.'].length := by
      rw [List.length_replicate]; decide
    have h3 : List.replicate 200 'd' ≠ ['.'] := fun h => h1 (congrArg List.length h)
    have h4 : List.replicate 200 'd' ≠ ['.', '.'] := fun h => h2 (congrArg List.length h)
    simp only [isDotEntry, Bool.or_eq_false_iff, beq_eq_false_iff_ne, ne_eq]
    exact ⟨h3, h4⟩
  simp only [ScanFolder, ScanFolder.loop, hq, hd, hj]
  rfl

end Slideshow
